import Mathlib

/-!
# Verification of the `iprange` package (interval algebra over IP ranges)

This file is a shallow embedding, in Lean 4, of the core of the Go package
`iprange` (github.com/iiiceoo/iprange): the `xIP` address arithmetic
(`ip.go`), the `ipRange` interval type (`range.go`), the `IPRanges` set
algebra (`Merge`, `Union`, `Diff`, `Intersect`, `IsOverlap`, `Size`,
`Contains`, `Parse`), and the CIDR iterator (`iterator.go`).

Addresses are modelled by their arbitrary-precision integer value (`ℕ`),
exactly the domain used by the Go code itself: every comparison and every
arithmetic step of the source goes through `ipToInt : net.IP → big.Int`
(`big.NewInt(0).SetBytes(ip)`), so two addresses behave identically in the
algebra iff their `ipToInt` images coincide.  The IP version tag of an
`IPRanges` value is kept as a separate `family` field, as in the source.
-/

namespace IPRangeProof

/-- IP version of an address or a range set (`family` in the source):
`Unknown`, `IPv4` or `IPv6`. -/
inductive family where
  | Unknown : family
  | IPv4 : family
  | IPv6 : family
deriving DecidableEq, Repr

/-- One contiguous closed interval of addresses (`ipRange` in `range.go`),
recorded by the integer values of its starting and ending IP. -/
structure ipRange where
  start : ℕ
  «end» : ℕ
deriving DecidableEq, Repr

/-- A set of IP ranges (`IPRanges` in the source): an IP version together
with an ordered list of `ipRange`. -/
structure IPRanges where
  version : family
  ranges : List ipRange
deriving DecidableEq, Repr

/-- `xIP.next`: the successor address.  In the source this is
`intToIP(ipToInt(ip) + 1)`; on integer values it is `n + 1`. -/
def xnext (n : ℕ) : ℕ := n + 1

/-- `xIP.prev`: the predecessor address, `intToIP(ipToInt(ip) - 1)`.
`big.Int.Bytes` returns the bytes of the absolute value, so for `n = 0`
the Go code produces the byte string `[0x01]`, i.e. the value `1`;
for positive `n` it produces `n - 1`. -/
def xprev (n : ℕ) : ℕ := if n = 0 then 1 else n - 1

/-- `ipRange.contains` (`range.go`): a `switch` on `r.start.cmp(ip)`;
equal start means contained, start above the address means not contained,
otherwise the answer is `r.end.cmp(ip) >= 0`. -/
def rcontains (r : ipRange) (x : ℕ) : Bool :=
  match compare r.start x with
  | Ordering.eq => true
  | Ordering.gt => false
  | Ordering.lt => decide (x ≤ r.«end»)

/-- `ipRange.size` (`range.go`): `1 + end - start` computed in `big.Int`,
hence an integer that may be non-positive on a malformed range. -/
def rsize (r : ipRange) : ℤ := 1 + (r.«end» : ℤ) - (r.start : ℤ)

/-- `ipRange.equal`: component-wise equality of the two bounds. -/
def requal (r r2 : ipRange) : Bool :=
  decide (r.start = r2.start) && decide (r.«end» = r2.«end»)

/-- A range is well formed when its start does not exceed its end — the
invariant every range produced by `parse` satisfies. -/
def ValidR (r : ipRange) : Prop := r.start ≤ r.«end»

instance : DecidablePred ValidR := fun r => by unfold ValidR; infer_instance

/-- All ranges of a list are well formed. -/
def Valid (l : List ipRange) : Prop := ∀ r ∈ l, ValidR r

instance : DecidablePred Valid := fun l => by unfold Valid; infer_instance

/-- Membership of an address value in a list of ranges: some range brackets
it.  This is the loop of `IPRanges.Contains` specialised to well formed
ranges. -/
def MemR (l : List ipRange) (x : ℕ) : Prop :=
  ∃ r ∈ l, r.start ≤ x ∧ x ≤ r.«end»

instance (l : List ipRange) (x : ℕ) : Decidable (MemR l x) := by
  unfold MemR; infer_instance

/-- `IPRanges.Contains` (`part_008`): the address's version must equal the
set's version, then the ranges are scanned with `ipRange.contains`.  The
version of the queried address is passed explicitly (in Go it is computed
from the byte length of the `net.IP`). -/
def Contains (rr : IPRanges) (xv : family) (x : ℕ) : Bool :=
  if xv ≠ rr.version then false
  else rr.ranges.any fun r => rcontains r x

/-- Insertion of a range into a list sorted by starting address; models one
step of the `sort.Slice(rc, …start.cmp…  < 0)` calls of the source. -/
def insertByStart (r : ipRange) : List ipRange → List ipRange
  | [] => [r]
  | s :: rest =>
    if r.start ≤ s.start then r :: s :: rest
    else s :: insertByStart r rest

/-- Sorting by starting address (`sort.Slice` with the comparator
`rc[i].start.cmp(rc[j].start) < 0`), modelled by insertion sort. -/
def sortRanges : List ipRange → List ipRange
  | [] => []
  | r :: rest => insertByStart r (sortRanges rest)

/-- The sweep loop of `IPRanges.Merge` (`part_008`): `c` is the current
accumulator range `merged[cur]`.  For each next range: if the accumulator's
`end.next()` equals the range's start, the accumulator's end becomes the
range's end; else if the accumulator ends before the range starts, the
accumulator is flushed; else if the range ends beyond the accumulator, the
accumulator's end is extended. -/
def mergeSweep (c : ipRange) : List ipRange → List ipRange
  | [] => [c]
  | r :: rest =>
    if xnext c.«end» = r.start then
      mergeSweep ⟨c.start, r.«end»⟩ rest
    else if c.«end» < r.start then
      c :: mergeSweep r rest
    else if c.«end» < r.«end» then
      mergeSweep ⟨c.start, r.«end»⟩ rest
    else
      mergeSweep c rest

/-- `IPRanges.Merge` (`part_008`): with at most one range the list is
returned as is (copied); otherwise the list is sorted by start on a copy
and swept once with the accumulator loop. -/
def Merge (rr : IPRanges) : IPRanges :=
  if rr.ranges.length ≤ 1 then
    { version := rr.version, ranges := rr.ranges }
  else
    { version := rr.version
      ranges :=
        match sortRanges rr.ranges with
        | [] => []
        | r :: rest => mergeSweep r rest }

/-- `IPRanges.Size` (`part_008`): the sum of `ipRange.size` over the stored
ranges — the list is *not* merged first. -/
def Size (rr : IPRanges) : ℤ :=
  (rr.ranges.map rsize).sum

/-- `IPRanges.Union` (`part_008`): on a version mismatch the left operand is
merged and returned; otherwise the concatenation of both lists is merged. -/
def Union (rr rs : IPRanges) : IPRanges :=
  if rr.version ≠ rs.version then Merge rr
  else Merge { version := rr.version, ranges := rr.ranges ++ rs.ranges }

/-- The two-pointer loop of `IPRanges.Diff` (`part_008`), including the
post-loop handling: when the subtrahend list is exhausted the remaining
minuend ranges (the current one with its possibly trimmed start first) are
appended unchanged. -/
def diffSweep : List ipRange → List ipRange → List ipRange
  | [], _ => []
  | om, [] => om
  | a :: om, b :: tm =>
    if a.«end» < b.start then
      a :: diffSweep om (b :: tm)
    else if a.start > b.«end» then
      diffSweep (a :: om) tm
    else if a.«end» ≤ b.«end» then
      (if a.start < b.start then [⟨a.start, xprev b.start⟩] else []) ++
        diffSweep om (b :: tm)
    else
      (if a.start < b.start then [⟨a.start, xprev b.start⟩] else []) ++
        diffSweep (⟨xnext b.«end», a.«end»⟩ :: om) tm
termination_by om tm => om.length + tm.length

/-- `IPRanges.Diff` (`part_008`): version mismatch or an empty operand
returns the merged left operand; otherwise both operands are merged and the
two-pointer subtraction sweep is run. -/
def Diff (rr rs : IPRanges) : IPRanges :=
  if rr.version ≠ rs.version then Merge rr
  else if rr.ranges = [] ∨ rs.ranges = [] then Merge rr
  else
    { version := rr.version
      ranges := diffSweep (Merge rr).ranges (Merge rs).ranges }

/-- The two-pointer loop of `IPRanges.Intersect` (`part_008`): each step
emits `[max(starts), min(ends)]` when non-empty (`start.cmp(end) <= 0`) and
advances the pointer whose range ends first. -/
def intersectSweep : List ipRange → List ipRange → List ipRange
  | [], _ => []
  | _ :: _, [] => []
  | a :: om, b :: tm =>
    let s := max a.start b.start
    let e := min a.«end» b.«end»
    (if s ≤ e then [⟨s, e⟩] else []) ++
      (if a.«end» < b.«end» then intersectSweep om (b :: tm)
       else intersectSweep (a :: om) tm)
termination_by om tm => om.length + tm.length

/-- `IPRanges.Intersect` (`part_008`): version mismatch or an empty operand
returns the merged left operand; otherwise both operands are merged and the
two-pointer intersection sweep is run. -/
def Intersect (rr rs : IPRanges) : IPRanges :=
  if rr.version ≠ rs.version then Merge rr
  else if rr.ranges = [] ∨ rs.ranges = [] then Merge rr
  else
    { version := rr.version
      ranges := intersectSweep (Merge rr).ranges (Merge rs).ranges }

/-- The scan loop of `IsOverlap`: reports whether some adjacent pair of the
(sorted) list satisfies `rc[i].end.cmp(rc[i+1].start) >= 0`. -/
def adjacentOverlap : List ipRange → Bool
  | r :: s :: rest => (decide (s.start ≤ r.«end»)) || adjacentOverlap (s :: rest)
  | _ => false

/-- `IPRanges.IsOverlap` (`part_008`).  The method sorts `rr.ranges` through
the slice header `rc := rr.ranges` — the caller's backing array, *not* a
copy — and then reports whether some adjacent pair overlaps.  The model
returns the boolean together with the operand's post-call state, whose
range list is the sorted one when the sort ran. -/
def IsOverlap (rr : IPRanges) : Bool × IPRanges :=
  if rr.ranges.length ≤ 1 then (false, rr)
  else
    (adjacentOverlap (sortRanges rr.ranges),
     { version := rr.version, ranges := sortRanges rr.ranges })

/-! ## Basic lemmas about membership and sorting -/

/-- Separation relation of the merged invariant: the left range ends at
least two addresses before the right one starts (no overlap, no
adjacency). -/
def Sep (r s : ipRange) : Prop := r.«end» + 1 < s.start

/-- Comparator order of the `sort.Slice` calls: sorted ascending by
starting address. -/
def startLE (r s : ipRange) : Prop := r.start ≤ s.start

theorem memR_nil (x : ℕ) : ¬ MemR [] x := by simp [MemR]

theorem memR_cons {r : ipRange} {l : List ipRange} {x : ℕ} :
    MemR (r :: l) x ↔ (r.start ≤ x ∧ x ≤ r.«end») ∨ MemR l x := by
  simp [MemR, or_and_right, exists_or]

theorem memR_append {l l' : List ipRange} {x : ℕ} :
    MemR (l ++ l') x ↔ MemR l x ∨ MemR l' x := by
  simp [MemR, or_and_right, exists_or]

theorem memR_perm {l l' : List ipRange} (h : l.Perm l') (x : ℕ) :
    MemR l x ↔ MemR l' x := by
  unfold MemR
  constructor
  · rintro ⟨r, hr, hx⟩; exact ⟨r, h.mem_iff.mp hr, hx⟩
  · rintro ⟨r, hr, hx⟩; exact ⟨r, h.mem_iff.mpr hr, hx⟩

theorem valid_perm {l l' : List ipRange} (h : l.Perm l') (hv : Valid l) :
    Valid l' := fun r hr => hv r (h.mem_iff.mpr hr)

theorem insertByStart_perm (r : ipRange) (l : List ipRange) :
    (insertByStart r l).Perm (r :: l) := by
  induction l with
  | nil => simp [insertByStart]
  | cons s rest ih =>
    by_cases h : r.start ≤ s.start
    · simp [insertByStart, h]
    · simp only [insertByStart, if_neg h]
      exact ((ih.cons s).trans (List.Perm.swap r s rest))

theorem sortRanges_perm (l : List ipRange) : (sortRanges l).Perm l := by
  induction l with
  | nil => simp [sortRanges]
  | cons r rest ih =>
    exact (insertByStart_perm r (sortRanges rest)).trans (ih.cons r)

theorem insertByStart_sorted {l : List ipRange} (r : ipRange)
    (h : l.Pairwise startLE) : (insertByStart r l).Pairwise startLE := by
  induction l with
  | nil => simp [insertByStart, List.pairwise_cons]
  | cons s rest ih =>
    rcases List.pairwise_cons.mp h with ⟨hs, hrest⟩
    by_cases hle : r.start ≤ s.start
    · simp only [insertByStart, if_pos hle]
      refine List.pairwise_cons.mpr ⟨?_, h⟩
      intro t ht
      rcases List.mem_cons.mp ht with rfl | ht
      · exact hle
      · exact le_trans hle (hs t ht)
    · simp only [insertByStart, if_neg hle]
      refine List.pairwise_cons.mpr ⟨?_, ih hrest⟩
      intro t ht
      rcases List.mem_cons.mp ((insertByStart_perm r rest).mem_iff.mp ht) with rfl | ht'
      · exact le_of_not_le hle
      · exact hs t ht'

theorem sortRanges_sorted (l : List ipRange) :
    (sortRanges l).Pairwise startLE := by
  induction l with
  | nil => simp [sortRanges]
  | cons r rest ih => exact insertByStart_sorted r ih

theorem sortRanges_of_sorted {l : List ipRange} (h : l.Pairwise startLE) :
    sortRanges l = l := by
  induction l with
  | nil => rfl
  | cons r rest ih =>
    rcases List.pairwise_cons.mp h with ⟨hr, hrest⟩
    rw [sortRanges, ih hrest]
    cases rest with
    | nil => rfl
    | cons s rest' =>
      have hle : r.start ≤ s.start := hr s (List.mem_cons_self s rest')
      simp only [insertByStart, if_pos hle]

/-! ## The merge sweep -/

/-- Structural facts about the sweep of `Merge`, for a sorted input whose
pending accumulator starts no later than any remaining range: the output
starts with the accumulator's start, all output starts lie at or after it,
and the output is pairwise separated and sorted. -/
theorem mergeSweep_struct (l : List ipRange) : ∀ c : ipRange,
    (∀ r ∈ l, c.start ≤ r.start) → l.Pairwise startLE →
    (∃ e tail, mergeSweep c l = ⟨c.start, e⟩ :: tail) ∧
    (∀ s ∈ mergeSweep c l, c.start ≤ s.start) ∧
    (mergeSweep c l).Pairwise Sep ∧
    (mergeSweep c l).Pairwise startLE := by
  induction l with
  | nil =>
    intro c _ _
    refine ⟨⟨c.«end», [], rfl⟩, ?_, ?_, ?_⟩ <;> simp [mergeSweep]
  | cons r rest ih =>
    intro c hle hsort
    rcases List.pairwise_cons.mp hsort with ⟨hr, hrest⟩
    have hcr : c.start ≤ r.start := hle r (List.mem_cons_self r rest)
    by_cases h1 : xnext c.«end» = r.start
    · -- adjacent: extend the accumulator's end to r.end
      have hpre : ∀ s ∈ rest, (⟨c.start, r.«end»⟩ : ipRange).start ≤ s.start :=
        fun s hs => le_trans hcr (hr s hs)
      have := ih ⟨c.start, r.«end»⟩ hpre hrest
      simpa only [mergeSweep, if_pos h1] using this
    · by_cases h2 : c.«end» < r.start
      · -- flush the accumulator, start a new one at r
        rcases ih r hr hrest with ⟨⟨e, tail, heq⟩, hlb, hsep, hsorted⟩
        have hout : mergeSweep c (r :: rest) = c :: mergeSweep r rest := by
          simp only [mergeSweep, if_neg h1, if_pos h2]
        refine ⟨⟨c.«end», mergeSweep r rest, by rw [hout]⟩, ?_, ?_, ?_⟩
        · intro s hs
          rw [hout] at hs
          rcases List.mem_cons.mp hs with rfl | hs
          · exact le_refl _
          · exact le_trans hcr (hlb s hs)
        · rw [hout]
          refine List.pairwise_cons.mpr ⟨?_, hsep⟩
          intro s hs
          have hsep1 : c.«end» + 1 < r.start := by
            unfold xnext at h1; omega
          exact lt_of_lt_of_le hsep1 (hlb s hs)
        · rw [hout]
          refine List.pairwise_cons.mpr ⟨?_, hsorted⟩
          intro s hs
          exact le_trans hcr (hlb s hs)
      · by_cases h3 : c.«end» < r.«end»
        · -- overlap: extend the accumulator's end
          have hpre : ∀ s ∈ rest, (⟨c.start, r.«end»⟩ : ipRange).start ≤ s.start :=
            fun s hs => le_trans hcr (hr s hs)
          have := ih ⟨c.start, r.«end»⟩ hpre hrest
          simpa only [mergeSweep, if_neg h1, if_neg h2, if_pos h3] using this
        · -- the next range is contained in the accumulator
          have hpre : ∀ s ∈ rest, c.start ≤ s.start :=
            fun s hs => le_trans hcr (hr s hs)
          have := ih c hpre hrest
          simpa only [mergeSweep, if_neg h1, if_neg h2, if_neg h3] using this

/-- Validity and address-set preservation of the sweep of `Merge`. -/
theorem mergeSweep_mem (l : List ipRange) : ∀ c : ipRange,
    ValidR c → Valid l →
    (∀ r ∈ l, c.start ≤ r.start) → l.Pairwise startLE →
    Valid (mergeSweep c l) ∧
    (∀ x, MemR (mergeSweep c l) x ↔
      (c.start ≤ x ∧ x ≤ c.«end») ∨ MemR l x) := by
  induction l with
  | nil =>
    intro c hc _ _ _
    constructor
    · intro r hrm
      simp only [mergeSweep, List.mem_singleton] at hrm
      subst hrm; exact hc
    · intro x
      simp [mergeSweep, memR_cons, memR_nil]
  | cons r rest ih =>
    intro c hc hv hle hsort
    rcases List.pairwise_cons.mp hsort with ⟨hr, hrest⟩
    have hcr : c.start ≤ r.start := hle r (List.mem_cons_self r rest)
    have hrv : ValidR r := hv r (List.mem_cons_self r rest)
    have hvrest : Valid rest := fun s hs => hv s (List.mem_cons.mpr (Or.inr hs))
    by_cases h1 : xnext c.«end» = r.start
    · have hadj : c.«end» + 1 = r.start := h1
      have hc' : ValidR (⟨c.start, r.«end»⟩ : ipRange) := by
        unfold ValidR at hc hrv ⊢; simp only at *; omega
      have hpre : ∀ s ∈ rest, (⟨c.start, r.«end»⟩ : ipRange).start ≤ s.start :=
        fun s hs => le_trans hcr (hr s hs)
      rcases ih ⟨c.start, r.«end»⟩ hc' hvrest hpre hrest with ⟨hva, hmem⟩
      constructor
      · simpa only [mergeSweep, if_pos h1] using hva
      · intro x
        have : MemR (mergeSweep c (r :: rest)) x ↔
            MemR (mergeSweep ⟨c.start, r.«end»⟩ rest) x := by
          simp only [mergeSweep, if_pos h1]
        rw [this, hmem x, memR_cons]
        unfold ValidR at hc hrv
        constructor
        · rintro (⟨ha, hb⟩ | hm)
          · simp only at ha hb
            by_cases hxc : x ≤ c.«end»
            · exact Or.inl ⟨ha, hxc⟩
            · exact Or.inr (Or.inl ⟨by omega, hb⟩)
          · exact Or.inr (Or.inr hm)
        · rintro (⟨ha, hb⟩ | ⟨ha, hb⟩ | hm)
          · exact Or.inl ⟨ha, by simp only; omega⟩
          · exact Or.inl ⟨by simp only; omega, by simp only; omega⟩
          · exact Or.inr hm
    · by_cases h2 : c.«end» < r.start
      · rcases ih r hrv hvrest hr hrest with ⟨hva, hmem⟩
        have hout : mergeSweep c (r :: rest) = c :: mergeSweep r rest := by
          simp only [mergeSweep, if_neg h1, if_pos h2]
        constructor
        · intro s hs
          rw [hout] at hs
          rcases List.mem_cons.mp hs with rfl | hs
          · exact hc
          · exact hva s hs
        · intro x
          rw [hout, memR_cons, hmem x, memR_cons]
      · have hrc : r.start ≤ c.«end» := le_of_not_lt h2
        by_cases h3 : c.«end» < r.«end»
        · have hc' : ValidR (⟨c.start, r.«end»⟩ : ipRange) := by
            unfold ValidR at hc hrv ⊢; simp only at *; omega
          have hpre : ∀ s ∈ rest, (⟨c.start, r.«end»⟩ : ipRange).start ≤ s.start :=
            fun s hs => le_trans hcr (hr s hs)
          rcases ih ⟨c.start, r.«end»⟩ hc' hvrest hpre hrest with ⟨hva, hmem⟩
          constructor
          · simpa only [mergeSweep, if_neg h1, if_neg h2, if_pos h3] using hva
          · intro x
            have : MemR (mergeSweep c (r :: rest)) x ↔
                MemR (mergeSweep ⟨c.start, r.«end»⟩ rest) x := by
              simp only [mergeSweep, if_neg h1, if_neg h2, if_pos h3]
            rw [this, hmem x, memR_cons]
            unfold ValidR at hc hrv
            constructor
            · rintro (⟨ha, hb⟩ | hm)
              · simp only at ha hb
                by_cases hxc : x ≤ c.«end»
                · exact Or.inl ⟨ha, hxc⟩
                · exact Or.inr (Or.inl ⟨by omega, hb⟩)
              · exact Or.inr (Or.inr hm)
            · rintro (⟨ha, hb⟩ | ⟨ha, hb⟩ | hm)
              · exact Or.inl ⟨ha, by simp only; omega⟩
              · exact Or.inl ⟨by simp only; omega, by simp only; omega⟩
              · exact Or.inr hm
        · have hre : r.«end» ≤ c.«end» := le_of_not_lt h3
          have hpre : ∀ s ∈ rest, c.start ≤ s.start :=
            fun s hs => le_trans hcr (hr s hs)
          rcases ih c hc hvrest hpre hrest with ⟨hva, hmem⟩
          constructor
          · simpa only [mergeSweep, if_neg h1, if_neg h2, if_neg h3] using hva
          · intro x
            have : MemR (mergeSweep c (r :: rest)) x ↔ MemR (mergeSweep c rest) x := by
              simp only [mergeSweep, if_neg h1, if_neg h2, if_neg h3]
            rw [this, hmem x, memR_cons]
            constructor
            · rintro (h | hm)
              · exact Or.inl h
              · exact Or.inr (Or.inr hm)
            · rintro (⟨ha, hb⟩ | ⟨ha, hb⟩ | hm)
              · exact Or.inl ⟨ha, hb⟩
              · exact Or.inl ⟨le_trans hcr ha, le_trans hb hre⟩
              · exact Or.inr hm

/-! ## Properties of `Merge` -/

theorem Merge_version (rr : IPRanges) : (Merge rr).version = rr.version := by
  unfold Merge
  split <;> rfl

theorem Merge_struct (rr : IPRanges) :
    (Merge rr).ranges.Pairwise Sep ∧ (Merge rr).ranges.Pairwise startLE ∨
    (Merge rr).ranges = rr.ranges ∧ rr.ranges.length ≤ 1 := by
  unfold Merge
  by_cases h : rr.ranges.length ≤ 1
  · right; simp [h]
  · left
    simp only [if_neg h]
    rcases hs : sortRanges rr.ranges with _ | ⟨r, rest⟩
    · simp
    · have hsorted : (r :: rest).Pairwise startLE := by
        rw [← hs]; exact sortRanges_sorted rr.ranges
      rcases List.pairwise_cons.mp hsorted with ⟨hr, hrest⟩
      rcases mergeSweep_struct rest r hr hrest with ⟨_, _, hsep, hsort⟩
      exact ⟨hsep, hsort⟩

theorem Merge_pairwise_of_big (rr : IPRanges) (h : ¬ rr.ranges.length ≤ 1) :
    (Merge rr).ranges.Pairwise Sep ∧ (Merge rr).ranges.Pairwise startLE := by
  rcases Merge_struct rr with h' | ⟨_, hlen⟩
  · exact h'
  · exact absurd hlen h

theorem Merge_valid {rr : IPRanges} (hv : Valid rr.ranges) :
    Valid (Merge rr).ranges := by
  unfold Merge
  by_cases h : rr.ranges.length ≤ 1
  · simpa [h] using hv
  · simp only [if_neg h]
    rcases hs : sortRanges rr.ranges with _ | ⟨r, rest⟩
    · intro r hr; simp at hr
    · have hperm := sortRanges_perm rr.ranges
      rw [hs] at hperm
      have hv' : Valid (r :: rest) := valid_perm hperm.symm hv
      have hsorted : (r :: rest).Pairwise startLE := by
        rw [← hs]; exact sortRanges_sorted rr.ranges
      rcases List.pairwise_cons.mp hsorted with ⟨hr, hrest⟩
      exact (mergeSweep_mem rest r (hv' r (List.mem_cons_self r rest))
        (fun s hsm => hv' s (List.mem_cons.mpr (Or.inr hsm))) hr hrest).1

theorem Merge_mem {rr : IPRanges} (hv : Valid rr.ranges) (x : ℕ) :
    MemR (Merge rr).ranges x ↔ MemR rr.ranges x := by
  unfold Merge
  by_cases h : rr.ranges.length ≤ 1
  · simp [h]
  · simp only [if_neg h]
    rcases hs : sortRanges rr.ranges with _ | ⟨r, rest⟩
    · have := sortRanges_perm rr.ranges
      rw [hs] at this
      rw [memR_perm this.symm x]
    · have hperm := sortRanges_perm rr.ranges
      rw [hs] at hperm
      have hv' : Valid (r :: rest) := valid_perm hperm.symm hv
      have hsorted : (r :: rest).Pairwise startLE := by
        rw [← hs]; exact sortRanges_sorted rr.ranges
      rcases List.pairwise_cons.mp hsorted with ⟨hr, hrest⟩
      have hmem := (mergeSweep_mem rest r (hv' r (List.mem_cons_self r rest))
        (fun s hsm => hv' s (List.mem_cons.mpr (Or.inr hsm))) hr hrest).2
      rw [hmem x, ← memR_cons, memR_perm hperm x]

/-- Sweeping a list that already satisfies the merged separation invariant
reproduces it unchanged. -/
theorem mergeSweep_of_sep (l : List ipRange) : ∀ c : ipRange,
    (c :: l).Pairwise Sep → mergeSweep c l = c :: l := by
  induction l with
  | nil => intro c _; rfl
  | cons r rest ih =>
    intro c h
    rcases List.pairwise_cons.mp h with ⟨hc, hrest⟩
    have hsep : c.«end» + 1 < r.start := hc r (List.mem_cons_self r rest)
    have h1 : ¬ xnext c.«end» = r.start := by unfold xnext; omega
    have h2 : c.«end» < r.start := by omega
    simp only [mergeSweep, if_neg h1, if_pos h2]
    rw [ih r hrest]

/-- Lists of at most one element satisfy any pairwise relation. -/
theorem pairwise_of_short {R : ipRange → ipRange → Prop} {l : List ipRange}
    (h : l.length ≤ 1) : l.Pairwise R := by
  rcases l with _ | ⟨r, _ | ⟨s, rest⟩⟩
  · simp
  · simp
  · simp at h

/-- The output of `Merge` always satisfies the merged invariant. -/
theorem Merge_pairwise (rr : IPRanges) :
    (Merge rr).ranges.Pairwise Sep ∧ (Merge rr).ranges.Pairwise startLE := by
  rcases Merge_struct rr with h | ⟨heq, hlen⟩
  · exact h
  · rw [heq]
    exact ⟨pairwise_of_short hlen, pairwise_of_short hlen⟩

/-- Merging a RangeSet that already satisfies the merged invariant returns
it unchanged (as a value). -/
theorem Merge_of_sorted_sep (rr : IPRanges) (hsep : rr.ranges.Pairwise Sep)
    (hsort : rr.ranges.Pairwise startLE) : Merge rr = rr := by
  unfold Merge
  by_cases h : rr.ranges.length ≤ 1
  · rw [if_pos h]
  · rw [if_neg h, sortRanges_of_sorted hsort]
    rcases hr : rr.ranges with _ | ⟨r, rest⟩
    · rw [hr] at h; simp at h
    · rw [hr] at hsep
      simp only [mergeSweep_of_sep rest r hsep]
      rw [← hr]

/-! ## Claim theorems: C2, C8, C6 -/

/-- C2: For every well formed RangeSet S, `Merge S` covers exactly the same
set of addresses as S, and its output satisfies the merged invariant:
ranges sorted ascending by start and pairwise separated — non-overlapping
and non-adjacent (`end + 1 < next start`). -/
theorem merge_covers_and_invariant (S : IPRanges) (hv : Valid S.ranges) :
    (∀ x, MemR (Merge S).ranges x ↔ MemR S.ranges x) ∧
    (Merge S).ranges.Pairwise (fun r s => r.start ≤ s.start) ∧
    (Merge S).ranges.Pairwise (fun r s => r.«end» + 1 < s.start) := by
  exact ⟨Merge_mem hv, (Merge_pairwise S).2, (Merge_pairwise S).1⟩

/-- The spec's own merge example `[172.18.0.1, 172.18.0.0/24]` (addresses
as integer values: 172.18.0.1 = 2886729729). -/
def mergeExample : IPRanges :=
  ⟨family.IPv4, [⟨2886729729, 2886729729⟩, ⟨2886729728, 2886729983⟩]⟩

/-- Witness for C2 at the spec's own example. -/
theorem merge_covers_and_invariant_witness :
    Valid mergeExample.ranges ∧
    ((∀ x, MemR (Merge mergeExample).ranges x ↔ MemR mergeExample.ranges x) ∧
     (Merge mergeExample).ranges.Pairwise (fun r s => r.start ≤ s.start) ∧
     (Merge mergeExample).ranges.Pairwise (fun r s => r.«end» + 1 < s.start)) :=
  ⟨by decide, merge_covers_and_invariant mergeExample (by decide)⟩

/-- C8: `Merge` is idempotent — merging an already merged RangeSet returns
it unchanged, for every RangeSet. -/
theorem merge_idempotent (S : IPRanges) : Merge (Merge S) = Merge S :=
  Merge_of_sorted_sep (Merge S) (Merge_pairwise S).1 (Merge_pairwise S).2

/-- C6: on an IP version mismatch, each of `Union`, `Diff` and `Intersect`
returns the merged left operand, whatever the right operand holds — no
error is possible (the operations are total). -/
theorem mismatch_algebra_noop (rr rs : IPRanges) (h : rr.version ≠ rs.version) :
    Union rr rs = Merge rr ∧ Diff rr rs = Merge rr ∧ Intersect rr rs = Merge rr := by
  unfold Union Diff Intersect
  rw [if_pos h, if_pos h, if_pos h]
  exact ⟨rfl, rfl, rfl⟩

/-- Witness for C6: an IPv4 set against an IPv6 set. -/
theorem mismatch_algebra_noop_witness :
    (family.IPv4 ≠ family.IPv6) ∧
    (Union ⟨family.IPv4, [⟨1, 2⟩]⟩ ⟨family.IPv6, [⟨5, 6⟩]⟩ =
        Merge ⟨family.IPv4, [⟨1, 2⟩]⟩ ∧
      Diff ⟨family.IPv4, [⟨1, 2⟩]⟩ ⟨family.IPv6, [⟨5, 6⟩]⟩ =
        Merge ⟨family.IPv4, [⟨1, 2⟩]⟩ ∧
      Intersect ⟨family.IPv4, [⟨1, 2⟩]⟩ ⟨family.IPv6, [⟨5, 6⟩]⟩ =
        Merge ⟨family.IPv4, [⟨1, 2⟩]⟩) :=
  ⟨by decide, mismatch_algebra_noop ⟨family.IPv4, [⟨1, 2⟩]⟩ ⟨family.IPv6, [⟨5, 6⟩]⟩
    (by decide)⟩

/-! ## The difference sweep (C1) -/

/-- No address at or below `b` belongs to a list whose ranges all start
above `b`. -/
theorem notMemR_of_le (b : ℕ) {l : List ipRange} {x : ℕ}
    (hlb : ∀ r ∈ l, b < r.start) (hx : x ≤ b) : ¬ MemR l x := by
  rintro ⟨r, hr, h1, h2⟩
  have := hlb r hr
  omega

theorem memR_nil_iff {x : ℕ} : MemR [] x ↔ False := by simp [MemR]

set_option maxHeartbeats 1600000 in
/-- Correctness of the two-pointer subtraction sweep: over two lists that
satisfy the merged invariant, the output contains an address exactly when
the minuend list contains it and the subtrahend list does not. -/
theorem diffSweep_mem (om tm : List ipRange) (x : ℕ) :
    Valid om → om.Pairwise Sep → Valid tm → tm.Pairwise Sep →
    (MemR (diffSweep om tm) x ↔ MemR om x ∧ ¬ MemR tm x) := by
  induction om, tm using diffSweep.induct with
  | case1 tm =>
    intro _ _ _ _
    simp only [diffSweep]
    simp [memR_nil_iff, MemR]
  | case2 om h =>
    intro _ _ _ _
    rcases om with _ | ⟨a, om'⟩
    · simp [diffSweep, memR_nil_iff, MemR]
    · have hout : diffSweep (a :: om') [] = a :: om' := by
        rw [diffSweep.eq_def]
      rw [hout]
      simp [memR_nil_iff]
  | case3 a om b tm h1 ih =>
    intro hvo hso hvt hst
    rcases List.pairwise_cons.mp hso with ⟨ho, hso'⟩
    rcases List.pairwise_cons.mp hst with ⟨ht, hst'⟩
    have hva : ValidR a := hvo a (List.mem_cons_self a om)
    have hvb : ValidR b := hvt b (List.mem_cons_self b tm)
    have hvo' : Valid om := fun r hr => hvo r (List.mem_cons.mpr (Or.inr hr))
    have hrec := ih hvo' hso' hvt hst
    have hout : diffSweep (a :: om) (b :: tm) = a :: diffSweep om (b :: tm) := by
      rw [diffSweep.eq_def]
      simp only [if_pos h1]
    unfold ValidR at hva hvb
    have f2 : (a.start ≤ x ∧ x ≤ a.«end») → ¬ MemR tm x := fun hx =>
      notMemR_of_le b.«end»
        (fun r hr => by have := ht r hr; unfold Sep at this; omega) (by omega)
    rw [hout, memR_cons, hrec, memR_cons, memR_cons]
    have f1 : (a.start ≤ x ∧ x ≤ a.«end») → ¬ (b.start ≤ x ∧ x ≤ b.«end») := by
      omega
    clear ih hrec hout
    itauto
  | case4 a om b tm h1 h2 ih =>
    intro hvo hso hvt hst
    rcases List.pairwise_cons.mp hso with ⟨ho, hso'⟩
    rcases List.pairwise_cons.mp hst with ⟨ht, hst'⟩
    have hva : ValidR a := hvo a (List.mem_cons_self a om)
    have hvb : ValidR b := hvt b (List.mem_cons_self b tm)
    have hvt' : Valid tm := fun r hr => hvt r (List.mem_cons.mpr (Or.inr hr))
    have hrec := ih hvo hso hvt' hst'
    have hout : diffSweep (a :: om) (b :: tm) = diffSweep (a :: om) tm := by
      rw [diffSweep.eq_def]
      simp only [if_neg h1, if_pos h2]
    unfold ValidR at hva hvb
    rw [hout, hrec, memR_cons, memR_cons]
    have g1 : (a.start ≤ x ∧ x ≤ a.«end») → ¬ (b.start ≤ x ∧ x ≤ b.«end») := by
      omega
    have g2 : MemR om x → ¬ (b.start ≤ x ∧ x ≤ b.«end») := by
      rintro ⟨r, hr, hr1, hr2⟩
      have := ho r hr
      unfold Sep at this
      omega
    clear ih hrec hout
    itauto
  | case5 a om b tm h1 h2 h3 ih =>
    intro hvo hso hvt hst
    rcases List.pairwise_cons.mp hso with ⟨ho, hso'⟩
    rcases List.pairwise_cons.mp hst with ⟨ht, hst'⟩
    have hva : ValidR a := hvo a (List.mem_cons_self a om)
    have hvb : ValidR b := hvt b (List.mem_cons_self b tm)
    have hvo' : Valid om := fun r hr => hvo r (List.mem_cons.mpr (Or.inr hr))
    have hrec := ih hvo' hso' hvt hst
    have hout : diffSweep (a :: om) (b :: tm) =
        (if a.start < b.start then [⟨a.start, xprev b.start⟩] else []) ++
          diffSweep om (b :: tm) := by
      rw [diffSweep.eq_def]
      simp only [if_neg h1, if_neg h2, if_pos h3]
    unfold ValidR at hva hvb
    push_neg at h1 h2
    have f3 : x ≤ b.«end» → ¬ MemR tm x := fun hx =>
      notMemR_of_le b.«end»
        (fun r hr => by have := ht r hr; unfold Sep at this; omega) hx
    by_cases hlt : a.start < b.start
    · have hb0 : ¬ b.start = 0 := by omega
      have hxp : xprev b.start = b.start - 1 := by unfold xprev; rw [if_neg hb0]
      rw [hout, if_pos hlt, hxp, memR_append, memR_cons, memR_nil_iff, hrec,
        memR_cons, memR_cons]
      dsimp only
      have f1 : (a.start ≤ x ∧ x ≤ b.start - 1) → (a.start ≤ x ∧ x ≤ a.«end») := by
        omega
      have f2 : (a.start ≤ x ∧ x ≤ b.start - 1) → ¬ (b.start ≤ x ∧ x ≤ b.«end») := by
        omega
      have f3' : (a.start ≤ x ∧ x ≤ b.start - 1) → ¬ MemR tm x := fun hx =>
        f3 (by omega)
      have f4 : (a.start ≤ x ∧ x ≤ a.«end») → ¬ (b.start ≤ x ∧ x ≤ b.«end») →
          (a.start ≤ x ∧ x ≤ b.start - 1) := by
        omega
      clear ih hrec hout
      itauto
    · rw [hout, if_neg hlt, memR_append, memR_nil_iff, hrec, memR_cons, memR_cons]
      push_neg at hlt
      have f5 : (a.start ≤ x ∧ x ≤ a.«end») → (b.start ≤ x ∧ x ≤ b.«end») := by
        omega
      clear ih hrec hout
      itauto
  | case6 a om b tm h1 h2 h3 ih =>
    intro hvo hso hvt hst
    rcases List.pairwise_cons.mp hso with ⟨ho, hso'⟩
    rcases List.pairwise_cons.mp hst with ⟨ht, hst'⟩
    have hva : ValidR a := hvo a (List.mem_cons_self a om)
    have hvb : ValidR b := hvt b (List.mem_cons_self b tm)
    have hvo' : Valid om := fun r hr => hvo r (List.mem_cons.mpr (Or.inr hr))
    have hvt' : Valid tm := fun r hr => hvt r (List.mem_cons.mpr (Or.inr hr))
    unfold ValidR at hva hvb
    have hout : diffSweep (a :: om) (b :: tm) =
        (if a.start < b.start then [⟨a.start, xprev b.start⟩] else []) ++
          diffSweep (⟨xnext b.«end», a.«end»⟩ :: om) tm := by
      rw [diffSweep.eq_def]
      simp only [if_neg h1, if_neg h2, if_neg h3]
    push_neg at h1 h2 h3
    have hvmod : Valid (⟨xnext b.«end», a.«end»⟩ :: om) := by
      intro r hr
      rcases List.mem_cons.mp hr with rfl | hr
      · show xnext b.«end» ≤ a.«end»
        unfold xnext
        omega
      · exact hvo' r hr
    have hsmod : (⟨xnext b.«end», a.«end»⟩ :: om).Pairwise Sep :=
      List.pairwise_cons.mpr ⟨fun r hr => ho r hr, hso'⟩
    have hrec := ih hvmod hsmod hvt' hst'
    have f3 : x ≤ b.«end» → ¬ MemR tm x := fun hx =>
      notMemR_of_le b.«end»
        (fun r hr => by have := ht r hr; unfold Sep at this; omega) hx
    have g3 : MemR om x → ¬ (b.start ≤ x ∧ x ≤ b.«end») := by
      rintro ⟨r, hr, hr1, hr2⟩
      have := ho r hr
      unfold Sep at this
      omega
    by_cases hlt : a.start < b.start
    · have hb0 : ¬ b.start = 0 := by omega
      have hxp : xprev b.start = b.start - 1 := by unfold xprev; rw [if_neg hb0]
      rw [hout, if_pos hlt, hxp, memR_append, memR_cons, memR_nil_iff, hrec,
        memR_cons, memR_cons, memR_cons]
      dsimp only
      simp only [xnext]
      have g1 : (b.«end» + 1 ≤ x ∧ x ≤ a.«end») → (a.start ≤ x ∧ x ≤ a.«end») := by
        omega
      have g2 : (b.«end» + 1 ≤ x ∧ x ≤ a.«end») → ¬ (b.start ≤ x ∧ x ≤ b.«end») := by
        omega
      have f1 : (a.start ≤ x ∧ x ≤ b.start - 1) → (a.start ≤ x ∧ x ≤ a.«end») := by
        omega
      have f2 : (a.start ≤ x ∧ x ≤ b.start - 1) → ¬ (b.start ≤ x ∧ x ≤ b.«end») := by
        omega
      have f3' : (a.start ≤ x ∧ x ≤ b.start - 1) → ¬ MemR tm x := fun hx =>
        f3 (by omega)
      have f6 : (a.start ≤ x ∧ x ≤ a.«end») → ¬ (b.start ≤ x ∧ x ≤ b.«end») →
          (a.start ≤ x ∧ x ≤ b.start - 1) ∨ (b.«end» + 1 ≤ x ∧ x ≤ a.«end») := by
        omega
      clear ih hrec hout
      itauto
    · rw [hout, if_neg hlt, memR_append, memR_nil_iff, hrec, memR_cons,
        memR_cons, memR_cons]
      dsimp only
      simp only [xnext]
      push_neg at hlt
      have g1 : (b.«end» + 1 ≤ x ∧ x ≤ a.«end») → (a.start ≤ x ∧ x ≤ a.«end») := by
        omega
      have g2 : (b.«end» + 1 ≤ x ∧ x ≤ a.«end») → ¬ (b.start ≤ x ∧ x ≤ b.«end») := by
        omega
      have f8 : (a.start ≤ x ∧ x ≤ a.«end») → ¬ (b.start ≤ x ∧ x ≤ b.«end») →
          (b.«end» + 1 ≤ x ∧ x ≤ a.«end») := by
        omega
      clear ih hrec hout
      itauto

/-- On a well formed range, `ipRange.contains` tests exactly the closed
interval `[start, end]`. -/
theorem rcontains_eq {r : ipRange} (hr : ValidR r) (x : ℕ) :
    rcontains r x = true ↔ (r.start ≤ x ∧ x ≤ r.«end») := by
  unfold ValidR at hr
  unfold rcontains
  rcases h : compare r.start x with _ | _ | _
  · rw [Nat.compare_eq_lt] at h
    simp only [decide_eq_true_eq]
    omega
  · rw [Nat.compare_eq_eq] at h
    constructor
    · intro _
      omega
    · intro _
      rfl
  · rw [Nat.compare_eq_gt] at h
    constructor
    · intro hh
      simp at hh
    · intro hh
      exfalso
      omega

/-- The scan loop of `Contains` agrees with interval membership on well
formed ranges. -/
theorem any_rcontains {l : List ipRange} (hv : Valid l) (x : ℕ) :
    (l.any fun r => rcontains r x) = true ↔ MemR l x := by
  rw [List.any_eq_true]
  unfold MemR
  constructor
  · rintro ⟨r, hr, hc⟩
    exact ⟨r, hr, (rcontains_eq (hv r hr) x).mp hc⟩
  · rintro ⟨r, hr, hc⟩
    exact ⟨r, hr, (rcontains_eq (hv r hr) x).mpr hc⟩

/-- `Contains` at the set's own version reduces to interval membership. -/
theorem Contains_eq_memR {rr : IPRanges} (hv : Valid rr.ranges) {f : family}
    (hf : f = rr.version) (x : ℕ) :
    Contains rr f x = true ↔ MemR rr.ranges x := by
  unfold Contains
  rw [if_neg (by simp [hf])]
  exact any_rcontains hv x

/-- Every range emitted by the subtraction sweep is well formed, provided
the minuend's ranges are. -/
theorem diffSweep_valid (om tm : List ipRange) :
    Valid om → Valid (diffSweep om tm) := by
  induction om, tm using diffSweep.induct with
  | case1 tm =>
    intro _
    simp only [diffSweep]
    intro r hr
    simp at hr
  | case2 om h =>
    intro hvo
    rcases om with _ | ⟨a, om'⟩
    · simpa [diffSweep] using hvo
    · have hout : diffSweep (a :: om') [] = a :: om' := by
        rw [diffSweep.eq_def]
      rw [hout]
      exact hvo
  | case3 a om b tm h1 ih =>
    intro hvo
    have hout : diffSweep (a :: om) (b :: tm) = a :: diffSweep om (b :: tm) := by
      rw [diffSweep.eq_def]
      simp only [if_pos h1]
    rw [hout]
    intro r hr
    rcases List.mem_cons.mp hr with rfl | hr
    · exact hvo r (List.mem_cons_self r om)
    · exact ih (fun s hs => hvo s (List.mem_cons.mpr (Or.inr hs))) r hr
  | case4 a om b tm h1 h2 ih =>
    intro hvo
    have hout : diffSweep (a :: om) (b :: tm) = diffSweep (a :: om) tm := by
      rw [diffSweep.eq_def]
      simp only [if_neg h1, if_pos h2]
    rw [hout]
    exact ih hvo
  | case5 a om b tm h1 h2 h3 ih =>
    intro hvo
    have hout : diffSweep (a :: om) (b :: tm) =
        (if a.start < b.start then [⟨a.start, xprev b.start⟩] else []) ++
          diffSweep om (b :: tm) := by
      rw [diffSweep.eq_def]
      simp only [if_neg h1, if_neg h2, if_pos h3]
    rw [hout]
    intro r hr
    rcases List.mem_append.mp hr with hr | hr
    · by_cases hlt : a.start < b.start
      · rw [if_pos hlt] at hr
        rcases List.mem_singleton.mp hr with rfl
        show a.start ≤ xprev b.start
        unfold xprev
        split <;> omega
      · rw [if_neg hlt] at hr
        simp at hr
    · exact ih (fun s hs => hvo s (List.mem_cons.mpr (Or.inr hs))) r hr
  | case6 a om b tm h1 h2 h3 ih =>
    intro hvo
    have hout : diffSweep (a :: om) (b :: tm) =
        (if a.start < b.start then [⟨a.start, xprev b.start⟩] else []) ++
          diffSweep (⟨xnext b.«end», a.«end»⟩ :: om) tm := by
      rw [diffSweep.eq_def]
      simp only [if_neg h1, if_neg h2, if_neg h3]
    rw [hout]
    have hva : ValidR a := hvo a (List.mem_cons_self a om)
    unfold ValidR at hva
    have hmod : Valid (⟨xnext b.«end», a.«end»⟩ :: om) := by
      intro s hs
      rcases List.mem_cons.mp hs with rfl | hs
      · show xnext b.«end» ≤ a.«end»
        unfold xnext
        omega
      · exact hvo s (List.mem_cons.mpr (Or.inr hs))
    intro r hr
    rcases List.mem_append.mp hr with hr | hr
    · by_cases hlt : a.start < b.start
      · rw [if_pos hlt] at hr
        rcases List.mem_singleton.mp hr with rfl
        show a.start ≤ xprev b.start
        unfold xprev
        split <;> omega
      · rw [if_neg hlt] at hr
        simp at hr
    · exact ih hmod r hr

/-- `Diff` preserves the left operand's IP version. -/
theorem Diff_version (rr rs : IPRanges) : (Diff rr rs).version = rr.version := by
  unfold Diff
  split
  · rw [Merge_version]
  · split
    · rw [Merge_version]
    · rfl

/-- C1: for same-family, non-empty, well formed RangeSets A and B, the
two-pointer sweep of `Diff` implements exact interval subtraction: an
address of that family is contained in `Diff A B` exactly when A contains
it and B does not. -/
theorem diff_is_exact_subtraction (A B : IPRanges) (hv : A.version = B.version)
    (hA : A.ranges ≠ []) (hB : B.ranges ≠ [])
    (hVA : Valid A.ranges) (hVB : Valid B.ranges) :
    ∀ x : ℕ, Contains (Diff A B) A.version x =
      (Contains A A.version x && !(Contains B A.version x)) := by
  intro x
  have hDiff : Diff A B =
      { version := A.version
        ranges := diffSweep (Merge A).ranges (Merge B).ranges } := by
    unfold Diff
    rw [if_neg (by simp [hv]), if_neg (by simp [hA, hB])]
  have hMA := Merge_valid hVA
  have hMB := Merge_valid hVB
  have hmain : MemR (diffSweep (Merge A).ranges (Merge B).ranges) x ↔
      MemR A.ranges x ∧ ¬ MemR B.ranges x := by
    rw [diffSweep_mem (Merge A).ranges (Merge B).ranges x hMA
      (Merge_pairwise A).1 hMB (Merge_pairwise B).1,
      Merge_mem hVA, Merge_mem hVB]
  have hvd : Valid (diffSweep (Merge A).ranges (Merge B).ranges) :=
    diffSweep_valid _ _ hMA
  have h1 : Contains (Diff A B) A.version x = true ↔
      MemR (diffSweep (Merge A).ranges (Merge B).ranges) x := by
    rw [hDiff]
    exact Contains_eq_memR hvd rfl x
  have h2 : Contains A A.version x = true ↔ MemR A.ranges x :=
    Contains_eq_memR hVA rfl x
  have h3 : Contains B A.version x = true ↔ MemR B.ranges x :=
    Contains_eq_memR hVB hv x
  rw [Bool.eq_iff_iff, h1, hmain, Bool.and_eq_true, Bool.not_eq_true', h2,
    Bool.eq_false_iff]
  simp only [ne_eq, h3]

/-- Witness for C1 at the spec's own example:
`[172.18.0.20-30, 172.18.0.1-25] − [172.18.0.5-25]` at address
`172.18.0.4` (start 172.18.0.1 = 2886729729). -/
theorem diff_is_exact_subtraction_witness :
    ((family.IPv4 : family) = family.IPv4 ∧
      ([(⟨2886729748, 2886729758⟩ : ipRange), ⟨2886729729, 2886729753⟩] ≠ []) ∧
      ([(⟨2886729733, 2886729753⟩ : ipRange)] ≠ []) ∧
      Valid [⟨2886729748, 2886729758⟩, ⟨2886729729, 2886729753⟩] ∧
      Valid [⟨2886729733, 2886729753⟩]) ∧
    Contains (Diff ⟨family.IPv4, [⟨2886729748, 2886729758⟩, ⟨2886729729, 2886729753⟩]⟩
        ⟨family.IPv4, [⟨2886729733, 2886729753⟩]⟩) family.IPv4 2886729732 =
      (Contains ⟨family.IPv4, [⟨2886729748, 2886729758⟩, ⟨2886729729, 2886729753⟩]⟩
          family.IPv4 2886729732 &&
        !(Contains ⟨family.IPv4, [⟨2886729733, 2886729753⟩]⟩ family.IPv4 2886729732)) :=
  ⟨⟨rfl, by decide, by decide, by decide, by decide⟩,
   diff_is_exact_subtraction
     ⟨family.IPv4, [⟨2886729748, 2886729758⟩, ⟨2886729729, 2886729753⟩]⟩
     ⟨family.IPv4, [⟨2886729733, 2886729753⟩]⟩
     rfl (by decide) (by decide) (by decide) (by decide) 2886729732⟩

/-! ## The intersection sweep (C4) -/

/-- Every range emitted by the intersection sweep is well formed: a pair is
only emitted under the `start.cmp(end) <= 0` guard. -/
theorem intersectSweep_valid (om tm : List ipRange) :
    Valid (intersectSweep om tm) := by
  induction om, tm using intersectSweep.induct with
  | case1 tm =>
    intro r hr
    simp only [intersectSweep] at hr
    simp at hr
  | case2 a om =>
    intro r hr
    rw [intersectSweep.eq_def] at hr
    simp at hr
  | case3 a om b tm ih1 ih2 =>
    intro r hr
    rw [intersectSweep.eq_def] at hr
    simp only at hr
    rcases List.mem_append.mp hr with hr | hr
    · by_cases hse : max a.start b.start ≤ min a.«end» b.«end»
      · rw [if_pos hse] at hr
        rcases List.mem_singleton.mp hr with rfl
        exact hse
      · rw [if_neg hse] at hr
        simp at hr
    · by_cases hab : a.«end» < b.«end»
      · rw [if_pos hab] at hr
        exact ih1 r hr
      · rw [if_neg hab] at hr
        exact ih2 r hr

/-- Correctness of the two-pointer intersection sweep: over two lists that
satisfy the merged invariant, the output contains an address exactly when
both input lists contain it. -/
theorem intersectSweep_mem (om tm : List ipRange) (x : ℕ) :
    om.Pairwise Sep → tm.Pairwise Sep →
    (MemR (intersectSweep om tm) x ↔ MemR om x ∧ MemR tm x) := by
  induction om, tm using intersectSweep.induct with
  | case1 tm =>
    intro _ _
    simp only [intersectSweep]
    simp [MemR]
  | case2 a om =>
    intro _ _
    rw [intersectSweep.eq_def]
    simp [MemR]
  | case3 a om b tm ih1 ih2 =>
    intro hso hst
    rcases List.pairwise_cons.mp hso with ⟨ho, hso'⟩
    rcases List.pairwise_cons.mp hst with ⟨ht, hst'⟩
    have fOm : MemR om x → a.«end» + 1 < x := by
      rintro ⟨r, hr, hr1, hr2⟩
      have := ho r hr
      unfold Sep at this
      omega
    have fTm : MemR tm x → b.«end» + 1 < x := by
      rintro ⟨r, hr, hr1, hr2⟩
      have := ht r hr
      unfold Sep at this
      omega
    have hout : intersectSweep (a :: om) (b :: tm) =
        (if max a.start b.start ≤ min a.«end» b.«end» then
          [⟨max a.start b.start, min a.«end» b.«end»⟩] else []) ++
          (if a.«end» < b.«end» then intersectSweep om (b :: tm)
           else intersectSweep (a :: om) tm) := by
      rw [intersectSweep.eq_def]
    rw [hout]
    by_cases hab : a.«end» < b.«end»
    · have hrec := ih1 hso' hst
      rw [if_pos hab, memR_append, hrec, memR_cons, memR_cons]
      have eA : (max a.start b.start ≤ x ∧ x ≤ min a.«end» b.«end») →
          (a.start ≤ x ∧ x ≤ a.«end») := by omega
      have eB : (max a.start b.start ≤ x ∧ x ≤ min a.«end» b.«end») →
          (b.start ≤ x ∧ x ≤ b.«end») := by omega
      have eAB : (a.start ≤ x ∧ x ≤ a.«end») → (b.start ≤ x ∧ x ≤ b.«end») →
          (max a.start b.start ≤ x ∧ x ≤ min a.«end» b.«end») := by omega
      have cAT : (a.start ≤ x ∧ x ≤ a.«end») → MemR tm x → False := fun hA hT => by
        have := fTm hT
        omega
      by_cases hse : max a.start b.start ≤ min a.«end» b.«end»
      · rw [if_pos hse, memR_cons, memR_nil_iff]
        dsimp only
        clear ih1 ih2 hrec hout
        itauto
      · rw [if_neg hse, memR_nil_iff]
        have cAB : (a.start ≤ x ∧ x ≤ a.«end») → (b.start ≤ x ∧ x ≤ b.«end») →
            False := fun hA hB => hse (by have := eAB hA hB; omega)
        clear ih1 ih2 hrec hout
        itauto
    · have hrec := ih2 hso hst'
      rw [if_neg hab, memR_append, hrec, memR_cons, memR_cons]
      have eA : (max a.start b.start ≤ x ∧ x ≤ min a.«end» b.«end») →
          (a.start ≤ x ∧ x ≤ a.«end») := by omega
      have eB : (max a.start b.start ≤ x ∧ x ≤ min a.«end» b.«end») →
          (b.start ≤ x ∧ x ≤ b.«end») := by omega
      have eAB : (a.start ≤ x ∧ x ≤ a.«end») → (b.start ≤ x ∧ x ≤ b.«end») →
          (max a.start b.start ≤ x ∧ x ≤ min a.«end» b.«end») := by omega
      have cOB : (b.start ≤ x ∧ x ≤ b.«end») → MemR om x → False := fun hB hO => by
        have := fOm hO
        omega
      by_cases hse : max a.start b.start ≤ min a.«end» b.«end»
      · rw [if_pos hse, memR_cons, memR_nil_iff]
        dsimp only
        clear ih1 ih2 hrec hout
        itauto
      · rw [if_neg hse, memR_nil_iff]
        have cAB : (a.start ≤ x ∧ x ≤ a.«end») → (b.start ≤ x ∧ x ≤ b.«end») →
            False := fun hA hB => hse (by have := eAB hA hB; omega)
        clear ih1 ih2 hrec hout
        itauto

/-- C4: for same-family, non-empty, well formed RangeSets A and B, the
two-pointer sweep of `Intersect` implements exact intersection: an address
of that family is contained in `Intersect A B` exactly when both A and B
contain it (single-address intersections included, since the emission guard
is `start ≤ end`). -/
theorem intersect_is_exact_intersection (A B : IPRanges)
    (hv : A.version = B.version) (hA : A.ranges ≠ []) (hB : B.ranges ≠ [])
    (hVA : Valid A.ranges) (hVB : Valid B.ranges) :
    ∀ x : ℕ, Contains (Intersect A B) A.version x =
      (Contains A A.version x && Contains B A.version x) := by
  intro x
  have hInt : Intersect A B =
      { version := A.version
        ranges := intersectSweep (Merge A).ranges (Merge B).ranges } := by
    unfold Intersect
    rw [if_neg (by simp [hv]), if_neg (by simp [hA, hB])]
  have hmain : MemR (intersectSweep (Merge A).ranges (Merge B).ranges) x ↔
      MemR A.ranges x ∧ MemR B.ranges x := by
    rw [intersectSweep_mem (Merge A).ranges (Merge B).ranges x
      (Merge_pairwise A).1 (Merge_pairwise B).1, Merge_mem hVA, Merge_mem hVB]
  have h1 : Contains (Intersect A B) A.version x = true ↔
      MemR (intersectSweep (Merge A).ranges (Merge B).ranges) x := by
    rw [hInt]
    exact Contains_eq_memR (intersectSweep_valid _ _) rfl x
  have h2 : Contains A A.version x = true ↔ MemR A.ranges x :=
    Contains_eq_memR hVA rfl x
  have h3 : Contains B A.version x = true ↔ MemR B.ranges x :=
    Contains_eq_memR hVB hv x
  rw [Bool.eq_iff_iff, h1, hmain, Bool.and_eq_true, h2, h3]

/-- Witness for C4: `[10-20] ∩ [15-15]` at the single shared address 15 —
the intersection consists of exactly one address
(`max(starts) = min(ends) = 15`). -/
theorem intersect_is_exact_intersection_witness :
    ((family.IPv4 : family) = family.IPv4 ∧
      ([(⟨10, 20⟩ : ipRange)] ≠ []) ∧ ([(⟨15, 15⟩ : ipRange)] ≠ []) ∧
      Valid [⟨10, 20⟩] ∧ Valid [⟨15, 15⟩]) ∧
    Contains (Intersect ⟨family.IPv4, [⟨10, 20⟩]⟩ ⟨family.IPv4, [⟨15, 15⟩]⟩)
        family.IPv4 15 =
      (Contains ⟨family.IPv4, [⟨10, 20⟩]⟩ family.IPv4 15 &&
        Contains ⟨family.IPv4, [⟨15, 15⟩]⟩ family.IPv4 15) :=
  ⟨⟨rfl, by decide, by decide, by decide, by decide⟩,
   intersect_is_exact_intersection ⟨family.IPv4, [⟨10, 20⟩]⟩
     ⟨family.IPv4, [⟨15, 15⟩]⟩ rfl (by decide) (by decide) (by decide)
     (by decide) 15⟩

/-! ## `Size` (C3) -/

/-- The set of addresses covered by a list of ranges, as a finite set. -/
def coveredSet (l : List ipRange) : Finset ℕ :=
  l.foldr (fun r acc => Finset.Icc r.start r.«end» ∪ acc) ∅

theorem coveredSet_mem (l : List ipRange) (x : ℕ) :
    x ∈ coveredSet l ↔ MemR l x := by
  induction l with
  | nil => simp [coveredSet, MemR]
  | cons a rest ih =>
    show x ∈ Finset.Icc a.start a.«end» ∪ coveredSet rest ↔ _
    rw [Finset.mem_union, Finset.mem_Icc, ih, memR_cons]

/-- On a list satisfying the merged invariant, the number of covered
addresses is the sum of the per-range sizes. -/
theorem coveredSet_card {l : List ipRange} (hv : Valid l) (hs : l.Pairwise Sep) :
    ((coveredSet l).card : ℤ) = (l.map rsize).sum := by
  induction l with
  | nil => simp [coveredSet]
  | cons a rest ih =>
    rcases List.pairwise_cons.mp hs with ⟨ha, hrest⟩
    have hva : ValidR a := hv a (List.mem_cons_self a rest)
    have hvrest : Valid rest := fun r hr => hv r (List.mem_cons.mpr (Or.inr hr))
    have hdis : Disjoint (Finset.Icc a.start a.«end») (coveredSet rest) := by
      rw [Finset.disjoint_left]
      intro x hx hx'
      rw [Finset.mem_Icc] at hx
      rw [coveredSet_mem] at hx'
      rcases hx' with ⟨r, hr, h1, h2⟩
      have := ha r hr
      unfold Sep at this
      omega
    show ((Finset.Icc a.start a.«end» ∪ coveredSet rest).card : ℤ) = _
    rw [Finset.card_union_of_disjoint hdis, List.map_cons, List.sum_cons,
      ← ih hvrest hrest, Nat.card_Icc]
    unfold ValidR at hva
    unfold rsize
    push_cast
    omega

/-- Counterexample to C3: a RangeSet holding the same range twice.  `Size`
sums the stored ranges without merging, so the duplicate is counted twice
(4 addresses), while the merged set has 2. -/
theorem size_no_merge_counterexample :
    Size ⟨family.IPv4, [⟨1, 2⟩, ⟨1, 2⟩]⟩ = 4 ∧
    Size (Merge ⟨family.IPv4, [⟨1, 2⟩, ⟨1, 2⟩]⟩) = 2 ∧
    Size ⟨family.IPv4, [⟨1, 2⟩, ⟨1, 2⟩]⟩ ≠
      Size (Merge ⟨family.IPv4, [⟨1, 2⟩, ⟨1, 2⟩]⟩) := by
  refine ⟨by decide, by decide, by decide⟩

/-- C3 (amended): `Size` sums the per-range sizes of the ranges exactly as
stored — no merge happens first — so overlapping or duplicate ranges are
double-counted; the number of distinct covered addresses is obtained by
merging first: for every well formed RangeSet S, `Size (Merge S)` equals
the cardinality of the set of addresses covered by S. -/
theorem size_unmerged_and_merged (S : IPRanges) (hv : Valid S.ranges) :
    Size S = (S.ranges.map rsize).sum ∧
    Size (Merge S) = ((coveredSet S.ranges).card : ℤ) := by
  constructor
  · rfl
  · have h1 : coveredSet (Merge S).ranges = coveredSet S.ranges := by
      ext x
      rw [coveredSet_mem, coveredSet_mem, Merge_mem hv]
    rw [← h1, coveredSet_card (Merge_valid hv) (Merge_pairwise S).1]
    rfl

/-- Witness for the amended C3 at the duplicated-range input. -/
theorem size_unmerged_and_merged_witness :
    Valid ([⟨1, 2⟩, ⟨1, 2⟩] : List ipRange) ∧
    (Size ⟨family.IPv4, [⟨1, 2⟩, ⟨1, 2⟩]⟩ =
        (([⟨1, 2⟩, ⟨1, 2⟩] : List ipRange).map rsize).sum ∧
      Size (Merge ⟨family.IPv4, [⟨1, 2⟩, ⟨1, 2⟩]⟩) =
        ((coveredSet [⟨1, 2⟩, ⟨1, 2⟩]).card : ℤ)) :=
  ⟨by decide, size_unmerged_and_merged ⟨family.IPv4, [⟨1, 2⟩, ⟨1, 2⟩]⟩ (by decide)⟩

/-! ## `IsOverlap` (C10) -/

/-- Two ranges overlap when their closed intervals intersect. -/
def overlapR (r s : ipRange) : Prop :=
  r.start ≤ s.«end» ∧ s.start ≤ r.«end»

theorem overlapR_symm : Symmetric fun r s => ¬ overlapR r s := by
  intro r s h hc
  exact h ⟨hc.2, hc.1⟩

/-- On a sorted, well formed list, the adjacent-pair scan is equivalent to
the existence of any overlapping pair. -/
theorem adjacentOverlap_eq {l : List ipRange} (hv : Valid l)
    (hs : l.Pairwise startLE) :
    adjacentOverlap l = true ↔ ¬ l.Pairwise (fun r s => ¬ overlapR r s) := by
  induction l with
  | nil => simp [adjacentOverlap]
  | cons r rest ih =>
    rcases rest with _ | ⟨s, rest'⟩
    · simp [adjacentOverlap]
    · rcases List.pairwise_cons.mp hs with ⟨hr, hs'⟩
      have hvs : ValidR s := hv s (List.mem_cons.mpr (Or.inr (List.mem_cons_self s rest')))
      have hv' : Valid (s :: rest') := fun t ht => hv t (List.mem_cons.mpr (Or.inr ht))
      have hrs : r.start ≤ s.start := hr s (List.mem_cons_self s rest')
      rw [show adjacentOverlap (r :: s :: rest') =
        ((decide (s.start ≤ r.«end»)) || adjacentOverlap (s :: rest')) from rfl]
      rw [Bool.or_eq_true, decide_eq_true_eq, ih hv' hs']
      constructor
      · rintro (hadj | hnp)
        · intro hp
          rcases List.pairwise_cons.mp hp with ⟨hnov, _⟩
          exact hnov s (List.mem_cons_self s rest')
            ⟨by unfold ValidR at hvs; omega, hadj⟩
        · intro hp
          exact hnp (List.pairwise_cons.mp hp).2
      · intro hnp
        by_cases hadj : s.start ≤ r.«end»
        · exact Or.inl hadj
        · right
          intro hp
          apply hnp
          refine List.pairwise_cons.mpr ⟨?_, hp⟩
          intro t ht hov
          have hts : s.start ≤ t.start := by
            rcases List.mem_cons.mp ht with rfl | ht'
            · exact le_refl _
            · exact (List.pairwise_cons.mp hs').1 t ht'
          exact hadj (le_trans hts hov.2)

/-- Counterexample to C10: on the two-element unsorted operand
`[[2,3], [0,1]]`, `IsOverlap` sorts the caller's backing array in place, so
the operand observed after the call differs from the one before it. -/
theorem isOverlap_mutates_counterexample :
    (IsOverlap ⟨family.IPv4, [⟨2, 3⟩, ⟨0, 1⟩]⟩).2 ≠
      (⟨family.IPv4, [⟨2, 3⟩, ⟨0, 1⟩]⟩ : IPRanges) := by
  decide

/-- C10 (amended): the returned boolean of `IsOverlap` is true exactly when
some pair of the operand's ranges overlaps (equivalently, some adjacent
pair of the sorted ranges has `end ≥ next start`); but the sort runs on the
operand's own backing array, not a private copy: after the call the
operand's range list is its sorted permutation — same contents, possibly
different order — and it is exactly `sortRanges` of the original when the
operand holds at least two ranges. -/
theorem isOverlap_bool_and_mutation (rr : IPRanges) (hv : Valid rr.ranges) :
    ((IsOverlap rr).1 = true ↔
      ¬ rr.ranges.Pairwise (fun r s => ¬ overlapR r s)) ∧
    (IsOverlap rr).2.version = rr.version ∧
    (IsOverlap rr).2.ranges.Perm rr.ranges ∧
    (¬ rr.ranges.length ≤ 1 → (IsOverlap rr).2.ranges = sortRanges rr.ranges) := by
  unfold IsOverlap
  by_cases h : rr.ranges.length ≤ 1
  · rw [if_pos h]
    refine ⟨?_, rfl, List.Perm.refl _, fun hc => absurd h hc⟩
    constructor
    · intro hc
      simp at hc
    · intro hnp
      exact (hnp (pairwise_of_short h)).elim
  · rw [if_neg h]
    refine ⟨?_, rfl, sortRanges_perm rr.ranges, fun _ => rfl⟩
    rw [adjacentOverlap_eq (valid_perm (sortRanges_perm rr.ranges).symm hv)
      (sortRanges_sorted rr.ranges)]
    rw [(sortRanges_perm rr.ranges).pairwise_iff (fun hxy => overlapR_symm hxy)]

/-- Witness for the amended C10 at a concrete overlapping pair. -/
theorem isOverlap_bool_and_mutation_witness :
    Valid ([⟨2, 5⟩, ⟨0, 3⟩] : List ipRange) ∧
    (((IsOverlap ⟨family.IPv4, [⟨2, 5⟩, ⟨0, 3⟩]⟩).1 = true ↔
        ¬ ([⟨2, 5⟩, ⟨0, 3⟩] : List ipRange).Pairwise (fun r s => ¬ overlapR r s)) ∧
      (IsOverlap ⟨family.IPv4, [⟨2, 5⟩, ⟨0, 3⟩]⟩).2.version = family.IPv4 ∧
      (IsOverlap ⟨family.IPv4, [⟨2, 5⟩, ⟨0, 3⟩]⟩).2.ranges.Perm
        ([⟨2, 5⟩, ⟨0, 3⟩] : List ipRange) ∧
      (¬ ([⟨2, 5⟩, ⟨0, 3⟩] : List ipRange).length ≤ 1 →
        (IsOverlap ⟨family.IPv4, [⟨2, 5⟩, ⟨0, 3⟩]⟩).2.ranges =
          sortRanges [⟨2, 5⟩, ⟨0, 3⟩])) :=
  ⟨by decide, isOverlap_bool_and_mutation ⟨family.IPv4, [⟨2, 5⟩, ⟨0, 3⟩]⟩ (by decide)⟩

/-! ## Canonical string form of a range (C9) -/

/-- The three shapes `ipRange.String` (`range.go`) can produce: a bare
address, a CIDR `A/prefixLength`, or a `start-end` pair. -/
inductive strForm where
  | addr : strForm
  | cidr : ℕ → strForm
  | dashPair : strForm
deriving DecidableEq, Repr

/-- The branch structure of `ipRange.String` (`range.go`): `inc := size()`,
`dv := inc − 1`, `bl := dv.BitLen()`; a zero bit length renders the bare
start address; else, when `inc AND dv == 0` (`inc` is a power of two) and
the start address masked to its top `bits − bl` bits equals itself (the low
`bl` bits are zero, modelled as `start % 2^bl = 0`), render
`A/(bits − bl)`; otherwise render `start-end`.  `w` is the address bit
width (32 for IPv4, 128 for IPv6, from `r.start.version()`). -/
def rangeStringForm (w : ℕ) (r : ipRange) : strForm :=
  let inc := r.«end» + 1 - r.start
  let dv := inc - 1
  let bl := Nat.size dv
  if bl = 0 then strForm.addr
  else if inc &&& dv = 0 then
    if r.start % 2 ^ bl = 0 then strForm.cidr (w - bl) else strForm.dashPair
  else strForm.dashPair

theorem size_two_pow_sub_one (k : ℕ) (hk : 1 ≤ k) :
    Nat.size (2 ^ k - 1) = k := by
  have h1 : Nat.size (2 ^ k - 1) ≤ k := Nat.size_le.mpr (by
    have := Nat.one_le_two_pow (n := k)
    omega)
  have h2 : k - 1 < Nat.size (2 ^ k - 1) := Nat.lt_size.mpr (by
    have hlt : 2 ^ (k - 1) < 2 ^ k := Nat.pow_lt_pow_right (by norm_num) (by omega)
    omega)
  omega

theorem two_pow_land_pred (k : ℕ) : 2 ^ k &&& (2 ^ k - 1) = 0 := by
  apply Nat.eq_of_testBit_eq
  intro i
  rw [Nat.testBit_land, Nat.zero_testBit]
  by_cases h : i = k
  · subst h
    rw [Nat.testBit_two_pow_sub_one]
    simp
  · rw [Nat.testBit_two_pow_of_ne (fun hc => h hc.symm)]
    simp

theorem land_pred_eq_zero_pow {n : ℕ} (hn : 1 ≤ n) (h : n &&& (n - 1) = 0) :
    n = 2 ^ (Nat.size n - 1) := by
  by_contra hc
  have hsz : 1 ≤ Nat.size n := Nat.size_pos.mpr hn
  have hle : 2 ^ (Nat.size n - 1) ≤ n := Nat.lt_size.mp (by omega)
  have hlt : n < 2 ^ (Nat.size n - 1 + 1) := by
    have := Nat.lt_size_self n
    have heq : Nat.size n - 1 + 1 = Nat.size n := by omega
    rw [heq]
    exact this
  have hgt : 2 ^ (Nat.size n - 1) < n := lt_of_le_of_ne hle (fun he => hc he.symm)
  set k := Nat.size n - 1 with hk
  have h2 : 2 ^ (k + 1) = 2 ^ k * 2 := by ring
  rw [h2] at hlt
  have ht1 : n.testBit k = true := by
    rw [Nat.testBit_to_div_mod]
    have hd : n / 2 ^ k = 1 := Nat.div_eq_of_lt_le (by omega) (by omega)
    simp [hd]
  have ht2 : (n - 1).testBit k = true := by
    rw [Nat.testBit_to_div_mod]
    have hd : (n - 1) / 2 ^ k = 1 := Nat.div_eq_of_lt_le (by omega) (by omega)
    simp [hd]
  have : (n &&& (n - 1)).testBit k = true := by
    rw [Nat.testBit_land, ht1, ht2]
    rfl
  rw [h, Nat.zero_testBit] at this
  exact absurd this (by simp)

/-- C9: for a well formed range, the canonical string is the bare address
exactly when the range is a single address; when it is not single, its size
is an exact power of two `2^k` and its start is aligned to that power-of-two
boundary, the CIDR form with prefix length `w − k` is rendered; and in every
other case the `start-end` form is rendered. -/
theorem string_form_characterization (w : ℕ) (r : ipRange) (hv : ValidR r) :
    (rangeStringForm w r = strForm.addr ↔ r.start = r.«end») ∧
    ((∃ k, r.«end» + 1 - r.start = 2 ^ k ∧ r.start % 2 ^ k = 0) →
      r.start ≠ r.«end» →
      rangeStringForm w r = strForm.cidr (w - Nat.size (r.«end» - r.start))) ∧
    ((¬ ∃ k, r.«end» + 1 - r.start = 2 ^ k ∧ r.start % 2 ^ k = 0) →
      r.start ≠ r.«end» →
      rangeStringForm w r = strForm.dashPair) := by
  unfold ValidR at hv
  unfold rangeStringForm
  simp only
  have hdv : r.«end» + 1 - r.start - 1 = r.«end» - r.start := by omega
  rw [hdv]
  refine ⟨?_, ?_, ?_⟩
  · by_cases h0 : Nat.size (r.«end» - r.start) = 0
    · rw [if_pos h0]
      rw [Nat.size_eq_zero] at h0
      simp only [true_iff]
      omega
    · rw [if_neg h0]
      rw [Nat.size_eq_zero] at h0
      constructor
      · intro hc
        split at hc
        · split at hc <;> simp at hc
        · simp at hc
      · intro hc
        exfalso
        omega
  · rintro ⟨k, hpow, halign⟩ hne
    have hk1 : 1 ≤ k := by
      rcases Nat.eq_zero_or_pos k with rfl | hk
      · simp at hpow
        omega
      · omega
    have hdveq : r.«end» - r.start = 2 ^ k - 1 := by
      have := Nat.one_le_two_pow (n := k)
      omega
    rw [hdveq, size_two_pow_sub_one k hk1, hpow]
    rw [if_neg (by
      have := Nat.one_le_two_pow (n := k)
      have hsz : Nat.size (2 ^ k - 1) = k := size_two_pow_sub_one k hk1
      omega)]
    rw [if_pos (by rw [hdveq] at *; exact two_pow_land_pred k), if_pos halign]
  · intro hnex hne
    have hdvpos : 1 ≤ r.«end» - r.start := by omega
    have hbl : ¬ Nat.size (r.«end» - r.start) = 0 := by
      rw [Nat.size_eq_zero]
      omega
    rw [if_neg hbl]
    by_cases hland : (r.«end» + 1 - r.start) &&& (r.«end» - r.start) = 0
    · rw [if_pos hland]
      have hinc1 : 1 ≤ r.«end» + 1 - r.start := by omega
      have hpow : r.«end» + 1 - r.start =
          2 ^ (Nat.size (r.«end» + 1 - r.start) - 1) := by
        apply land_pred_eq_zero_pow hinc1
        have : r.«end» + 1 - r.start - 1 = r.«end» - r.start := by omega
        rw [this]
        exact hland
      set K := Nat.size (r.«end» + 1 - r.start) - 1 with hK
      have hKsize : Nat.size (r.«end» - r.start) = K := by
        have : r.«end» - r.start = 2 ^ K - 1 := by
          have := Nat.one_le_two_pow (n := K)
          omega
        rw [this]
        apply size_two_pow_sub_one
        rcases Nat.eq_zero_or_pos K with hc | hK2
        · rw [hc] at hpow
          simp at hpow
          omega
        · omega
      rw [hKsize]
      rw [if_neg (by
        intro halign
        exact hnex ⟨K, hpow, halign⟩)]
    · rw [if_neg hland]

/-- Witness for C9 at `172.18.0.0/24` as an IPv4 range: 256 addresses,
power of two, aligned start. -/
theorem string_form_characterization_witness :
    ValidR (⟨2886729728, 2886729983⟩ : ipRange) ∧
    ((rangeStringForm 32 ⟨2886729728, 2886729983⟩ = strForm.addr ↔
        (2886729728 : ℕ) = 2886729983) ∧
     ((∃ k, (2886729983 : ℕ) + 1 - 2886729728 = 2 ^ k ∧
          (2886729728 : ℕ) % 2 ^ k = 0) →
       (2886729728 : ℕ) ≠ 2886729983 →
       rangeStringForm 32 ⟨2886729728, 2886729983⟩ =
         strForm.cidr (32 - Nat.size ((2886729983 : ℕ) - 2886729728))) ∧
     ((¬ ∃ k, (2886729983 : ℕ) + 1 - 2886729728 = 2 ^ k ∧
          (2886729728 : ℕ) % 2 ^ k = 0) →
       (2886729728 : ℕ) ≠ 2886729983 →
       rangeStringForm 32 ⟨2886729728, 2886729983⟩ = strForm.dashPair)) :=
  ⟨by decide, string_form_characterization 32 ⟨2886729728, 2886729983⟩ (by decide)⟩

/-! ## The CIDR iterator (C5) -/

/-- `intToIP` / `big.Int.Bytes`: the minimal big-endian byte string of a
natural number (empty for zero). -/
def intBytes (n : ℕ) : List ℕ :=
  if h : n = 0 then []
  else intBytes (n / 256) ++ [n % 256]
termination_by n
decreasing_by exact Nat.div_lt_self (Nat.pos_of_ne_zero h) (by norm_num)

/-- The inner loop of `righthandZeroBits`: count the trailing zero bits of
one non-zero byte (`for b&1 == 0 { n++; b >>= 1 }`). -/
def byteTZ (b : ℕ) : ℕ :=
  if h : b = 0 then 0
  else if b % 2 = 0 then byteTZ (b / 2) + 1
  else 0
termination_by b
decreasing_by exact Nat.div_lt_self (Nat.pos_of_ne_zero h) (by norm_num)

/-- The byte loop of `righthandZeroBits` (`iterator.go`), processed from
the last byte backwards: each zero byte contributes 8 zero bits; the first
non-zero byte contributes its trailing zero bits and stops the scan. -/
def righthandZeroBitsAux : List ℕ → ℕ
  | [] => 0
  | b :: rest => if b = 0 then 8 + righthandZeroBitsAux rest else byteTZ b

/-- `righthandZeroBits` (`iterator.go`): trailing zero bits of a big-endian
byte string. -/
def righthandZeroBits (bb : List ℕ) : ℕ :=
  righthandZeroBitsAux bb.reverse

/-- The per-step block width of `cidrIterator.next` (`iterator.go`):
`delta := last − current + 1`;
`nbits := min(righthandZeroBits(intToIP(current)), delta.BitLen() − 1)`. -/
def cidrNBits (current last : ℕ) : ℕ :=
  min (righthandZeroBits (intBytes current))
    (Nat.size (last - current + 1) - 1)

/-- The block stream emitted by the CIDR iterator for one range: each step
emits the block of `2^nbits` addresses anchored at `current` and advances
`current` by `2^nbits`, until `current > last`. -/
def cidrSteps (current last : ℕ) : List (ℕ × ℕ) :=
  if last < current then []
  else (current, cidrNBits current last) ::
    cidrSteps (current + 2 ^ cidrNBits current last) last
termination_by last + 1 - current
decreasing_by
  have h1 : 1 ≤ 2 ^ cidrNBits current last := Nat.one_le_two_pow
  omega

theorem byteTZ_spec (b : ℕ) : b ≠ 0 →
    ∃ m, b = 2 ^ byteTZ b * m ∧ m % 2 = 1 := by
  induction b using byteTZ.induct with
  | case1 =>
    intro hb
    exact absurd rfl hb
  | case2 b hb0 hev ih =>
    intro _
    have hhalf : b / 2 ≠ 0 := by omega
    rcases ih hhalf with ⟨m, hm, hodd⟩
    refine ⟨m, ?_, hodd⟩
    rw [byteTZ, dif_neg hb0, if_pos hev, pow_succ]
    have hb2 : b = 2 * (b / 2) := by omega
    calc b = 2 * (b / 2) := hb2
      _ = 2 * (2 ^ byteTZ (b / 2) * m) := congrArg (fun z => 2 * z) hm
      _ = 2 ^ byteTZ (b / 2) * 2 * m := by ring
  | case3 b hb0 hodd =>
    intro _
    refine ⟨b, ?_, by omega⟩
    rw [byteTZ, dif_neg hb0, if_neg hodd]
    ring

/-- The trailing-zero count of the minimal byte string of a positive number
is exact: the number factors as a power of two times an odd number. -/
theorem righthandZeroBits_spec (n : ℕ) : n ≠ 0 →
    ∃ m, n = 2 ^ righthandZeroBits (intBytes n) * m ∧ m % 2 = 1 := by
  induction n using intBytes.induct with
  | case1 =>
    intro hn
    exact absurd rfl hn
  | case2 n h0 ih =>
    intro _
    have hbytes : intBytes n = intBytes (n / 256) ++ [n % 256] := by
      rw [intBytes, dif_neg h0]
    have hrev : righthandZeroBits (intBytes n) =
        if n % 256 = 0 then 8 + righthandZeroBits (intBytes (n / 256))
        else byteTZ (n % 256) := by
      unfold righthandZeroBits
      rw [hbytes, List.reverse_append]
      rfl
    by_cases hb : n % 256 = 0
    · have hq : n / 256 ≠ 0 := by omega
      rcases ih hq with ⟨m, hm, hodd⟩
      refine ⟨m, ?_, hodd⟩
      rw [hrev, if_pos hb, pow_add]
      have hn256 : n = 256 * (n / 256) := by omega
      calc n = 256 * (n / 256) := hn256
        _ = 256 * (2 ^ righthandZeroBits (intBytes (n / 256)) * m) :=
            congrArg (fun z => 256 * z) hm
        _ = 2 ^ 8 * 2 ^ righthandZeroBits (intBytes (n / 256)) * m := by
            rw [show (256 : ℕ) = 2 ^ 8 from by norm_num]
            ring
    · rcases byteTZ_spec (n % 256) hb with ⟨m, hm, hodd⟩
      set t := byteTZ (n % 256) with htdef
      have ht8 : t < 8 := by
        by_contra hc
        push_neg at hc
        have h2 : (2 : ℕ) ^ 8 ≤ 2 ^ t :=
          Nat.pow_le_pow_right (by norm_num) hc
        have hmge : 1 ≤ m := by omega
        have hle : 2 ^ t ≤ n % 256 := by
          calc 2 ^ t = 2 ^ t * 1 := by ring
            _ ≤ 2 ^ t * m := Nat.mul_le_mul_left _ hmge
            _ = n % 256 := hm.symm
        have hlt : n % 256 < 256 := Nat.mod_lt _ (by norm_num)
        omega
      have hpos : 1 ≤ 8 - t := by omega
      have h256 : (256 : ℕ) = 2 ^ t * 2 ^ (8 - t) := by
        rw [← pow_add, show t + (8 - t) = 8 from by omega]
        norm_num
      refine ⟨2 ^ (8 - t) * (n / 256) + m, ?_, ?_⟩
      · rw [hrev, if_neg hb]
        have hsplit : n = 256 * (n / 256) + n % 256 := by omega
        calc n = 256 * (n / 256) + n % 256 := hsplit
          _ = 2 ^ t * 2 ^ (8 - t) * (n / 256) + 2 ^ t * m := by
              rw [← h256, hm]
          _ = 2 ^ t * (2 ^ (8 - t) * (n / 256) + m) := by ring
      · have heven2 : 2 ^ (8 - t) * (n / 256) % 2 = 0 := by
          rw [show 8 - t = 1 + (8 - t - 1) from by omega, pow_add, pow_one,
            mul_assoc]
          omega
        omega

/-- Every emitted block is anchored at an address divisible by its size:
the blocks are genuine CIDR blocks. -/
theorem righthandZeroBits_dvd (c : ℕ) :
    2 ^ righthandZeroBits (intBytes c) ∣ c := by
  rcases Nat.eq_zero_or_pos c with rfl | hc
  · exact Dvd.intro 0 (by ring)
  · rcases righthandZeroBits_spec c (by omega) with ⟨m, hm, _⟩
    exact Dvd.intro m hm.symm

/-- Every block of the stream starts at or after the initial cursor. -/
theorem cidrSteps_lb (current last : ℕ) :
    ∀ p ∈ cidrSteps current last, current ≤ p.1 := by
  induction current, last using cidrSteps.induct with
  | case1 c l h =>
    intro p hp
    rw [cidrSteps, if_pos h] at hp
    simp at hp
  | case2 c l h ih =>
    intro p hp
    rw [cidrSteps, if_neg h] at hp
    rcases List.mem_cons.mp hp with rfl | hp
    · exact le_refl _
    · have := ih p hp
      have h1 : 1 ≤ 2 ^ cidrNBits c l := Nat.one_le_two_pow
      omega

/-- Each step's block fits inside the remaining interval:
`2^nbits ≤ last − current + 1`. -/
theorem cidrNBits_le (c l : ℕ) (h : c ≤ l) : 2 ^ cidrNBits c l ≤ l - c + 1 := by
  have hdelta : 1 ≤ l - c + 1 := by omega
  have hmin : cidrNBits c l ≤ Nat.size (l - c + 1) - 1 := min_le_right _ _
  have hsz : 1 ≤ Nat.size (l - c + 1) := Nat.size_pos.mpr (by omega)
  have hle : 2 ^ (Nat.size (l - c + 1) - 1) ≤ l - c + 1 := Nat.lt_size.mp (by omega)
  calc 2 ^ cidrNBits c l ≤ 2 ^ (Nat.size (l - c + 1) - 1) :=
        Nat.pow_le_pow_right (by norm_num) hmin
    _ ≤ l - c + 1 := hle

/-- Core specification of the greedy CIDR decomposition: the block sizes
sum to the interval length, the blocks are ordered and pairwise disjoint,
their union is exactly the interval, and each block is aligned. -/
theorem cidrSteps_spec (current last : ℕ) :
    (((cidrSteps current last).map fun p => 2 ^ p.2).sum = last + 1 - current) ∧
    (cidrSteps current last).Pairwise (fun p q => p.1 + 2 ^ p.2 - 1 < q.1) ∧
    (∀ x, (∃ p ∈ cidrSteps current last, p.1 ≤ x ∧ x ≤ p.1 + 2 ^ p.2 - 1) ↔
      (current ≤ x ∧ x ≤ last)) ∧
    (∀ p ∈ cidrSteps current last, 2 ^ p.2 ∣ p.1) := by
  induction current, last using cidrSteps.induct with
  | case1 c l h =>
    rw [cidrSteps, if_pos h]
    refine ⟨by simp only [List.map_nil, List.sum_nil]; omega, by simp, ?_, by simp⟩
    intro x
    constructor
    · rintro ⟨p, hp, _⟩
      simp at hp
    · rintro ⟨h1, h2⟩
      exfalso
      omega
  | case2 c l h ih =>
    push_neg at h
    rcases ih with ⟨ihsum, ihpw, ihcov, ihdvd⟩
    have hB : 1 ≤ 2 ^ cidrNBits c l := Nat.one_le_two_pow
    have hBle : 2 ^ cidrNBits c l ≤ l - c + 1 := cidrNBits_le c l h
    have hout : cidrSteps c l = (c, cidrNBits c l) ::
        cidrSteps (c + 2 ^ cidrNBits c l) l := by
      rw [cidrSteps, if_neg (by omega)]
    rw [hout]
    refine ⟨?_, ?_, ?_, ?_⟩
    · rw [List.map_cons, List.sum_cons, ihsum]
      dsimp only
      omega
    · refine List.pairwise_cons.mpr ⟨?_, ihpw⟩
      intro q hq
      have := cidrSteps_lb (c + 2 ^ cidrNBits c l) l q hq
      dsimp only
      omega
    · intro x
      constructor
      · rintro ⟨p, hp, hp1, hp2⟩
        rcases List.mem_cons.mp hp with rfl | hp
        · dsimp only at hp1 hp2
          omega
        · have := (ihcov x).mp ⟨p, hp, hp1, hp2⟩
          omega
      · rintro ⟨h1, h2⟩
        by_cases hx : x ≤ c + 2 ^ cidrNBits c l - 1
        · exact ⟨(c, cidrNBits c l), List.mem_cons_self _ _, by dsimp only; omega,
            by dsimp only; omega⟩
        · push_neg at hx
          rcases (ihcov x).mpr ⟨by omega, h2⟩ with ⟨p, hp, hps⟩
          exact ⟨p, List.mem_cons.mpr (Or.inr hp), hps⟩
    · intro p hp
      rcases List.mem_cons.mp hp with rfl | hp
      · simp only
        exact dvd_trans
          (pow_dvd_pow 2 (min_le_left _ _))
          (righthandZeroBits_dvd c)
      · exact ihdvd p hp

/-- C5: for every well formed range, the CIDR iterator's block stream for
that range is pairwise disjoint, covers exactly the range, sums (by block
address count) to the range's `size()`, and each block of `2^n` addresses
is anchored at an address divisible by `2^n` — where `n` per step is
`min(trailingZeroBits(current), bitLength(last − current + 1) − 1)`
(definition `cidrNBits`). -/
theorem cidr_iterator_decomposition (r : ipRange) (hv : ValidR r) :
    (((((cidrSteps r.start r.«end»).map fun p => (2 : ℕ) ^ p.2).sum : ℕ) : ℤ) =
      rsize r) ∧
    (cidrSteps r.start r.«end»).Pairwise (fun p q => p.1 + 2 ^ p.2 - 1 < q.1) ∧
    (∀ x, (∃ p ∈ cidrSteps r.start r.«end», p.1 ≤ x ∧ x ≤ p.1 + 2 ^ p.2 - 1) ↔
      (r.start ≤ x ∧ x ≤ r.«end»)) ∧
    (∀ p ∈ cidrSteps r.start r.«end», 2 ^ p.2 ∣ p.1) := by
  rcases cidrSteps_spec r.start r.«end» with ⟨hsum, hpw, hcov, hdvd⟩
  refine ⟨?_, hpw, hcov, hdvd⟩
  rw [hsum]
  unfold ValidR at hv
  unfold rsize
  omega

/-- Witness for C5 at the spec's own example `172.18.0.1-3`
(172.18.0.1 = 2886729729): blocks `172.18.0.1/32` and `172.18.0.2/31`. -/
theorem cidr_iterator_decomposition_witness :
    ValidR (⟨2886729729, 2886729731⟩ : ipRange) ∧
    (((((((cidrSteps 2886729729 2886729731).map fun p =>
          (2 : ℕ) ^ p.2).sum : ℕ) : ℤ)) =
        rsize ⟨2886729729, 2886729731⟩) ∧
      (cidrSteps 2886729729 2886729731).Pairwise
        (fun p q => p.1 + 2 ^ p.2 - 1 < q.1) ∧
      (∀ x, (∃ p ∈ cidrSteps 2886729729 2886729731,
          p.1 ≤ x ∧ x ≤ p.1 + 2 ^ p.2 - 1) ↔
        ((2886729729 : ℕ) ≤ x ∧ x ≤ 2886729731)) ∧
      (∀ p ∈ cidrSteps 2886729729 2886729731, 2 ^ p.2 ∣ p.1)) :=
  ⟨by decide, cidr_iterator_decomposition ⟨2886729729, 2886729731⟩ (by decide)⟩

/-! ## Parsing (C7)

The textual address grammar is the Go standard library's (`net.ParseIP`,
`net.ParseCIDR`, both with current `netip` semantics: dotted-quad IPv4
with fields 0–255 and no leading zeros; RFC 4291 IPv6 with at most one
`::`, 1–4 hex digits per group, optional embedded dotted quad, no zone).
Strings are modelled as `List Char`.  Go's legacy `net.ParseCIDR` address
parser differs from `netip` only on exotic inputs (5+-digit zero-padded
hex groups, `%` zones inside CIDR strings); the model uses the `netip`
grammar for both entry points. -/

/-- A parsed, normalized address (`xIP{normalizeIP(...)}`): its family
after `normalizeIP` (4-byte for IPv4 and IPv4-mapped forms, 16-byte
otherwise) and its integer value. -/
structure netAddr where
  ver : family
  val : ℕ
deriving DecidableEq, Repr

def isDigitCh (c : Char) : Prop := '0' ≤ c ∧ c ≤ '9'

instance : DecidablePred isDigitCh := fun c => by unfold isDigitCh; infer_instance

def digitVal (c : Char) : ℕ := c.toNat - '0'.toNat

/-- A hex digit's value, accepting both cases (`xtoi` in Go). -/
def hexDigitVal (c : Char) : Option ℕ :=
  if '0' ≤ c ∧ c ≤ '9' then some (c.toNat - '0'.toNat)
  else if 'a' ≤ c ∧ c ≤ 'f' then some (c.toNat - 'a'.toNat + 10)
  else if 'A' ≤ c ∧ c ≤ 'F' then some (c.toNat - 'A'.toNat + 10)
  else none

def isHexCh (c : Char) : Prop := (hexDigitVal c).isSome

instance : DecidablePred isHexCh := fun c => by unfold isHexCh; infer_instance

/-- Go's `dtoi`: read a decimal prefix, reporting the value, the number of
characters consumed and success; fails on an empty digit prefix or when
the value reaches the `big` cutoff `0xFFFFFF`. -/
def dtoi (s : List Char) : ℕ × ℕ × Bool :=
  let ds := s.takeWhile (fun c => decide (isDigitCh c))
  if ds.length = 0 then (0, 0, false)
  else
    let v := ds.foldl (fun acc c => acc * 10 + digitVal c) 0
    if v ≥ 0xFFFFFF then (0xFFFFFF, ds.length, false)
    else (v, ds.length, true)

/-- One dotted-quad field (`netip.parseIPv4Fields`): 1–3 digits, value at
most 255, no leading zero. -/
def parseV4Field (s : List Char) : Option (ℕ × List Char) :=
  let ds := s.takeWhile (fun c => decide (isDigitCh c))
  let rest := s.dropWhile (fun c => decide (isDigitCh c))
  if ds.length = 0 then none
  else if 2 ≤ ds.length ∧ ds.head? = some '0' then none
  else
    let v := ds.foldl (fun acc c => acc * 10 + digitVal c) 0
    if v > 255 then none
    else some (v, rest)

/-- `parseIPv4` (netip semantics): exactly four dot-separated fields and
nothing else; the value of the 4-byte address. -/
def parseIPv4 (s : List Char) : Option ℕ :=
  match parseV4Field s with
  | none => none
  | some (a, r1) =>
    match r1 with
    | '.' :: r1' =>
      match parseV4Field r1' with
      | none => none
      | some (b, r2) =>
        match r2 with
        | '.' :: r2' =>
          match parseV4Field r2' with
          | none => none
          | some (c, r3) =>
            match r3 with
            | '.' :: r3' =>
              match parseV4Field r3' with
              | none => none
              | some (d, r4) =>
                if r4 = [] then
                  some (a * 2 ^ 24 + b * 2 ^ 16 + c * 2 ^ 8 + d)
                else none
            | _ => none
        | _ => none
    | _ => none

/-- Big-endian byte-list value. -/
def bytesVal (bb : List ℕ) : ℕ :=
  bb.foldl (fun acc b => acc * 256 + b) 0

/-- The post-loop phase of `netip.parseIPv6`: any remaining input is an
error; fewer than 16 bytes require a `::` (which expands with zero bytes
at its recorded position); a full 16 bytes forbid a `::`. -/
def parseIPv6Finish (s : List Char) (i : ℕ) (ellipsis : Option ℕ)
    (bytes : List ℕ) : Option (List ℕ) :=
  if s ≠ [] then none
  else if i < 16 then
    match ellipsis with
    | none => none
    | some e => some (bytes.take e ++ List.replicate (16 - i) 0 ++ bytes.drop e)
  else if ellipsis ≠ none then none
  else some bytes

/-- The main loop of `netip.parseIPv6`, one iteration per recursive call
(`fuel` bounds the number of iterations; each consumes at least one
character, so `s.length + 1` is always enough).  Per iteration: read a hex
group of 1–4 digits; an immediately following `'.'` switches to an
embedded dotted quad (allowed only as the final 2 fields, or after a
`::`); otherwise store the two group bytes and consume `':'` (a second
`':'` records the single allowed ellipsis). -/
def parseIPv6Loop (fuel : ℕ) (s : List Char) (i : ℕ) (ellipsis : Option ℕ)
    (bytes : List ℕ) : Option (List ℕ) :=
  match fuel with
  | 0 => none
  | fuel + 1 =>
    if 16 ≤ i ∨ s = [] then parseIPv6Finish s i ellipsis bytes
    else
      let hex := s.takeWhile (fun c => decide (isHexCh c))
      let rest := s.dropWhile (fun c => decide (isHexCh c))
      if hex.length = 0 then none
      else if 4 < hex.length then none
      else
        let acc := hex.foldl (fun a c => a * 16 + (hexDigitVal c).getD 0) 0
        if rest ≠ [] ∧ rest.head? = some '.' then
          if ellipsis = none ∧ i ≠ 12 then none
          else if 16 < i + 4 then none
          else
            match parseIPv4 s with
            | none => none
            | some v4 =>
              parseIPv6Finish [] (i + 4) ellipsis
                (bytes ++ [v4 / 2 ^ 24 % 256, v4 / 2 ^ 16 % 256,
                  v4 / 2 ^ 8 % 256, v4 % 256])
        else
          let bytes' := bytes ++ [acc / 256, acc % 256]
          match rest with
          | [] => parseIPv6Finish [] (i + 2) ellipsis bytes'
          | ':' :: [] => none
          | ':' :: ':' :: rest2 =>
            if ellipsis ≠ none then none
            else if rest2 = [] then parseIPv6Finish [] (i + 2) (some (i + 2)) bytes'
            else parseIPv6Loop fuel rest2 (i + 2) (some (i + 2)) bytes'
          | ':' :: rest1 => parseIPv6Loop fuel rest1 (i + 2) ellipsis bytes'
          | _ => none

/-- `parseIPv6` (netip semantics): handles the leading `::` specially and
runs the group loop; yields the 128-bit value. -/
def parseIPv6 (s : List Char) : Option ℕ :=
  match s with
  | ':' :: ':' :: rest =>
    if rest = [] then some 0
    else (parseIPv6Loop (rest.length + 1) rest 0 (some 0) []).map bytesVal
  | _ => (parseIPv6Loop (s.length + 1) s 0 none []).map bytesVal

/-- The dispatch scan of `net.ParseIP` / `netip.ParseAddr`: the first of
`'.'`, `':'`, `'%'` decides the branch; no such character means failure.
The result is the 128-bit `As16` value (dotted quads map to the
IPv4-mapped range). -/
def goParseIPScan (orig : List Char) : List Char → Option ℕ
  | [] => none
  | c :: rest =>
    if c = '.' then (parseIPv4 orig).map (fun v => 0xFFFF * 2 ^ 32 + v)
    else if c = ':' then parseIPv6 orig
    else if c = '%' then none
    else goParseIPScan orig rest

/-- `net.ParseIP` on a string, as a 128-bit value. -/
def goParseIP (s : List Char) : Option ℕ :=
  goParseIPScan s s

/-- `normalizeIP` on a 16-byte value: an IPv4-mapped value collapses to
its 4-byte form (family IPv4, low 32 bits); anything else stays IPv6. -/
def normalizeVal (v : ℕ) : netAddr :=
  if v / 2 ^ 32 = 0xFFFF then ⟨family.IPv4, v % 2 ^ 32⟩
  else ⟨family.IPv6, v⟩

/-- Split a string at the first occurrence of a character
(`strings.Cut` / `byteIndex`-then-slice): the parts before and after. -/
def splitOnFirst (c : Char) : List Char → Option (List Char × List Char)
  | [] => none
  | x :: rest =>
    if x = c then some ([], rest)
    else (splitOnFirst c rest).map fun p => (x :: p.1, p.2)

/-- `strings.LastIndex` for a single character. -/
def lastIndexOf (c : Char) (l : List Char) : Option ℕ :=
  match l.reverse.findIdx? (· = c) with
  | none => none
  | some j => some (l.length - 1 - j)

/-- `net.ParseCIDR` on a string: split at the first `'/'`; parse the
address as dotted quad first, else as IPv6; the mask must be a fully
consumed decimal at most the address bit width.  Returns the pair the
CIDR branch of `parse` (`range.go`) builds from it: the *unmasked* address
as the start, and the network with all host bits set as the end, both
normalized. -/
def goParseCIDR (s : List Char) : Option (netAddr × netAddr) :=
  match splitOnFirst '/' s with
  | none => none
  | some (addr, mask) =>
    match parseIPv4 addr with
    | some v4 =>
      match dtoi mask with
      | (n, c, ok) =>
        if ok = true ∧ c = mask.length ∧ n ≤ 32 then
          let host := 32 - n
          let network := v4 / 2 ^ host * 2 ^ host
          some (⟨family.IPv4, v4⟩, ⟨family.IPv4, network + 2 ^ host - 1⟩)
        else none
    | none =>
      match parseIPv6 addr with
      | none => none
      | some v6 =>
        match dtoi mask with
        | (n, c, ok) =>
          if ok = true ∧ c = mask.length ∧ n ≤ 128 then
            let host := 128 - n
            let network := v6 / 2 ^ host * 2 ^ host
            some (normalizeVal v6, normalizeVal (network + 2 ^ host - 1))
          else none

/-- The abbreviated-suffix substitution of the dash branch of `parse`
(`range.go`): replace everything after the last `'.'` (or, failing that,
the last `':'`) of `before` with `after`. -/
def substSuffix (before after : List Char) : List Char :=
  match lastIndexOf '.' before with
  | some i => before.take (i + 1) ++ after
  | none =>
    match lastIndexOf ':' before with
    | some i => before.take (i + 1) ++ after
    | none => after

/-- The two error values of the package (`errors.go`):
`errInvalidIPRangeFormat` and `errDualStackIPRanges`. -/
inductive parseErr where
  | invalidFormat : parseErr
  | dualStack : parseErr
deriving DecidableEq, Repr

/-- A parsed range as stored by `parse`: both bounds are normalized
addresses (the two bounds may even have different families, e.g.
`1.2.3.4-fd00::1`, which the code accepts). -/
structure parsedRange where
  start : netAddr
  «end» : netAddr
deriving DecidableEq, Repr

/-- `parse` (`range.go`): empty strings fail; a string containing `'/'`
must parse as CIDR; a string containing `'-'` is split at the first dash,
the part before must parse as an address, the part after is parsed as a
full address or retried with the abbreviated suffix substituted, and the
end must not be below the start (compared on normalized integer values);
otherwise the whole string must parse as a single address. -/
def parse (r : List Char) : Except parseErr parsedRange :=
  if r = [] then Except.error parseErr.invalidFormat
  else if '/' ∈ r then
    match goParseCIDR r with
    | none => Except.error parseErr.invalidFormat
    | some (s, e) => Except.ok ⟨s, e⟩
  else
    match splitOnFirst '-' r with
    | some (before, after) =>
      match goParseIP before with
      | none => Except.error parseErr.invalidFormat
      | some sv =>
        match goParseIP after with
        | some ev =>
          if (normalizeVal ev).val < (normalizeVal sv).val then
            Except.error parseErr.invalidFormat
          else Except.ok ⟨normalizeVal sv, normalizeVal ev⟩
        | none =>
          match goParseIP (substSuffix before after) with
          | none => Except.error parseErr.invalidFormat
          | some ev =>
            if (normalizeVal ev).val < (normalizeVal sv).val then
              Except.error parseErr.invalidFormat
            else Except.ok ⟨normalizeVal sv, normalizeVal ev⟩
    | none =>
      match goParseIP r with
      | none => Except.error parseErr.invalidFormat
      | some v => Except.ok ⟨normalizeVal v, normalizeVal v⟩

/-- The loop of `Parse` (`part_008`): per element, a parse failure returns
its error at once; the first element fixes the version (IPv4 when its
start survives `To4`, i.e. has family IPv4); any later element whose start
has a different version returns the dual-stack error. -/
def ParseLoop : List (List Char) → ℕ → family → List parsedRange →
    Except parseErr (family × List parsedRange)
  | [], _, version, acc => Except.ok (version, acc)
  | r :: rest, i, version, acc =>
    match parse r with
    | Except.error e => Except.error e
    | Except.ok v =>
      let version' :=
        if i = 0 then
          (if v.start.ver = family.IPv4 then family.IPv4 else family.IPv6)
        else version
      if v.start.ver ≠ version' then Except.error parseErr.dualStack
      else ParseLoop rest (i + 1) version' (acc ++ [v])

/-- `Parse` (`part_008`): an empty argument list is an invalid-format
error; otherwise the loop runs from the first element. -/
def ParseGo (rs : List (List Char)) : Except parseErr (family × List parsedRange) :=
  if rs = [] then Except.error parseErr.invalidFormat
  else ParseLoop rs 0 family.Unknown []

/-! ### Spec-side grammar predicates for C7

These definitions follow the wording of the spec (§4.2 parsing grammar,
§6 external grammar, §7 error handling) and of the claim: the four forms
in priority order, the out-of-range-CIDR-prefix condition and the
reversed-dash condition, with addresses delegated to the standard
library's grammar (`goParseIP` / `parseIPv4` / `parseIPv6`). -/

/-- Modelled from the spec (§4.2 form 1): the syntactic pieces of a CIDR
string — split at the first `'/'`, the address parses (dotted quad first,
else IPv6) and the prefix is a fully consumed decimal.  Returns whether
the address was IPv4 together with the prefix value. -/
def cidrParts (r : List Char) : Option (Bool × ℕ) :=
  match splitOnFirst '/' r with
  | none => none
  | some (addr, mask) =>
    match dtoi mask with
    | (n, c, ok) =>
      if ok = true ∧ c = mask.length then
        match parseIPv4 addr with
        | some _ => some (true, n)
        | none => if (parseIPv6 addr).isSome then some (false, n) else none
      else none

/-- Modelled from the spec: the string matches the CIDR grammar form. -/
def specFormCIDR (r : List Char) : Bool :=
  r.contains '/' && (cidrParts r).isSome

/-- Modelled from the spec (§7): the CIDR prefix is within range — at most
32 for an IPv4 address, at most 128 for an IPv6 address. -/
def specCIDRInRange (r : List Char) : Bool :=
  match cidrParts r with
  | some (true, n) => decide (n ≤ 32)
  | some (false, n) => decide (n ≤ 128)
  | none => false

/-- Modelled from the spec (§4.2 forms 2 and 3): the resolved bounds of a
dash form — the part before the first `'-'` parses as an address, and the
part after parses either as a full address or, failing that, with the
abbreviated suffix substituted after the last separator of the start. -/
def dashParts (r : List Char) : Option (netAddr × netAddr) :=
  match splitOnFirst '-' r with
  | none => none
  | some (before, after) =>
    match goParseIP before with
    | none => none
    | some sv =>
      match goParseIP after with
      | some ev => some (normalizeVal sv, normalizeVal ev)
      | none =>
        match goParseIP (substSuffix before after) with
        | some ev => some (normalizeVal sv, normalizeVal ev)
        | none => none

/-- Modelled from the spec: the string matches the dash grammar forms
(which apply only when the CIDR form does not, i.e. no `'/'`). -/
def specFormDash (r : List Char) : Bool :=
  !r.contains '/' && (dashParts r).isSome

/-- Modelled from the spec (§4.2): the dash form's end address is not
below its start address (on normalized integer values). -/
def specDashOrdered (r : List Char) : Bool :=
  match dashParts r with
  | some (s, e) => decide (s.val ≤ e.val)
  | none => false

/-- Modelled from the spec (§4.2 form 4): a single address — no `'/'`, no
`'-'`, and the whole string parses as an address. -/
def specFormSingle (r : List Char) : Bool :=
  !r.contains '/' && (splitOnFirst '-' r).isNone && (goParseIP r).isSome

/-- Modelled from the spec: the string matches one of the four grammar
forms together with that form's side conditions. -/
def specFormOK (r : List Char) : Bool :=
  (specFormCIDR r && specCIDRInRange r) ||
    (specFormDash r && specDashOrdered r) || specFormSingle r

/-- Modelled from the claim: a string is format-offending when it is empty
or fails the grammar with its side conditions. -/
def badFormat (r : List Char) : Bool :=
  r.isEmpty || !specFormOK r

/-- Modelled from the spec (§4.3): the family a string contributes — that
of its parsed start address. -/
def specStartAddr (r : List Char) : Option netAddr :=
  if r.contains '/' then (goParseCIDR r).map Prod.fst
  else
    match splitOnFirst '-' r with
    | some (before, _) => (goParseIP before).map normalizeVal
    | none => (goParseIP r).map normalizeVal

def specFamily (r : List Char) : family :=
  match specStartAddr r with
  | some a => a.ver
  | none => family.Unknown

/-- Modelled from the claim: scanning the inputs in order, the first
offending string decides the outcome — a format-offending string yields
the invalid-format error, a well-formed string of a family other than the
first string's yields the dual-stack error; otherwise scanning
continues. -/
def specScan (fam0 : family) : List (List Char) → Except parseErr Unit
  | [] => Except.ok ()
  | r :: rest =>
    if badFormat r then Except.error parseErr.invalidFormat
    else if specFamily r ≠ fam0 then Except.error parseErr.dualStack
    else specScan fam0 rest

/-- Modelled from the claim: the reference error behaviour of `Parse` —
the scan anchored at the first string's family (an empty input list is an
invalid-format error). -/
def specParse : List (List Char) → Except parseErr Unit
  | [] => Except.error parseErr.invalidFormat
  | r :: rest => specScan (specFamily r) (r :: rest)

/-! ### Bridging lemmas for C7 -/

theorem splitOnFirst_none_iff (c : Char) (l : List Char) :
    splitOnFirst c l = none ↔ c ∉ l := by
  induction l with
  | nil => simp [splitOnFirst]
  | cons x rest ih =>
    simp only [splitOnFirst, List.mem_cons]
    by_cases hx : x = c
    · subst hx
      simp
    · rw [if_neg hx]
      rcases hs : splitOnFirst c rest with _ | p
      · simp only [Option.map_none']
        have hnr : c ∉ rest := ih.mp hs
        constructor
        · intro _
          rintro (rfl | hm)
          · exact hx rfl
          · exact hnr hm
        · intro _
          trivial
      · simp only [Option.map_some']
        have hr : c ∈ rest := by
          by_contra hcr
          have := ih.mpr hcr
          rw [hs] at this
          exact Option.noConfusion this
        constructor
        · intro h'
          exact absurd h' (by simp)
        · intro h'
          exact absurd (Or.inr hr) h'

theorem contains_iff_mem (c : Char) (l : List Char) :
    l.contains c = true ↔ c ∈ l := by
  simp [List.contains]

theorem normalizeVal_ver (v : ℕ) : (normalizeVal v).ver ≠ family.Unknown := by
  unfold normalizeVal
  split <;> simp

theorem goParseCIDR_isSome (r : List Char) :
    (goParseCIDR r).isSome = ((cidrParts r).isSome && specCIDRInRange r) := by
  rcases hsp : splitOnFirst '/' r with _ | ⟨addr, mask⟩
  · simp [goParseCIDR, cidrParts, specCIDRInRange, hsp]
  · rcases hdt : dtoi mask with ⟨n, cc, ok⟩
    by_cases hok : ok = true ∧ cc = mask.length
    · rcases h4 : parseIPv4 addr with _ | v4
      · rcases h6 : parseIPv6 addr with _ | v6
        · simp [goParseCIDR, cidrParts, specCIDRInRange, hsp, hdt, h4, h6,
            hok.1, hok.2]
        · by_cases hn : n ≤ 128
          · simp [goParseCIDR, cidrParts, specCIDRInRange, hsp, hdt, h4, h6,
              hok.1, hok.2, hn]
          · simp [goParseCIDR, cidrParts, specCIDRInRange, hsp, hdt, h4, h6,
              hok.1, hok.2, hn]
      · by_cases hn : n ≤ 32
        · simp [goParseCIDR, cidrParts, specCIDRInRange, hsp, hdt, h4,
            hok.1, hok.2, hn]
        · simp [goParseCIDR, cidrParts, specCIDRInRange, hsp, hdt, h4,
            hok.1, hok.2, hn]
    · have hok3a : ¬ (ok = true ∧ cc = mask.length ∧ n ≤ 32) :=
        fun h => hok ⟨h.1, h.2.1⟩
      have hok3b : ¬ (ok = true ∧ cc = mask.length ∧ n ≤ 128) :=
        fun h => hok ⟨h.1, h.2.1⟩
      rcases h4 : parseIPv4 addr with _ | v4
      · rcases h6 : parseIPv6 addr with _ | v6
        · simp [goParseCIDR, cidrParts, specCIDRInRange, hsp, hdt, h4, h6,
            hok, hok3a, hok3b]
        · simp [goParseCIDR, cidrParts, specCIDRInRange, hsp, hdt, h4, h6,
            hok, hok3a, hok3b]
      · simp [goParseCIDR, cidrParts, specCIDRInRange, hsp, hdt, h4,
          hok, hok3a, hok3b]

theorem goParseCIDR_start_ver {r : List Char} {s e : netAddr}
    (h : goParseCIDR r = some (s, e)) : s.ver ≠ family.Unknown := by
  unfold goParseCIDR at h
  split at h
  · exact Option.noConfusion h
  · split at h
    · split at h
      split at h
      · simp only [Option.some_inj, Prod.mk.injEq] at h
        rw [← h.1]
        simp
      · exact Option.noConfusion h
    · split at h
      · exact Option.noConfusion h
      · split at h
        split at h
        · simp only [Option.some_inj, Prod.mk.injEq] at h
          rw [← h.1]
          exact normalizeVal_ver _
        · exact Option.noConfusion h
/-- Characterization of `parse`: it fails (always with the invalid-format
error) exactly on format-offending strings, and on success the parsed
start's family is the string's spec-side family and is never `Unknown`. -/
theorem parse_characterization (r : List Char) :
    match parse r with
    | Except.ok v => badFormat r = false ∧ specFamily r = v.start.ver ∧
        v.start.ver ≠ family.Unknown
    | Except.error e => e = parseErr.invalidFormat ∧ badFormat r = true := by
  by_cases hemp : r = []
  · subst hemp
    simp [parse, badFormat]
  · have hie : r.isEmpty = false := by
      cases r
      · exact absurd rfl hemp
      · rfl
    by_cases hslash : '/' ∈ r
    · have hcont : r.contains '/' = true := (contains_iff_mem _ _).mpr hslash
      rcases hg : goParseCIDR r with _ | ⟨sa, ea⟩
      · have hps : parse r = Except.error parseErr.invalidFormat := by
          unfold parse
          rw [if_neg hemp, if_pos hslash, hg]
        rw [hps]
        refine ⟨rfl, ?_⟩
        have hiss : ((cidrParts r).isSome && specCIDRInRange r) = false := by
          rw [← goParseCIDR_isSome, hg]
          rfl
        unfold badFormat specFormOK specFormCIDR specFormDash specFormSingle
        rw [hcont, hie]
        simp only [Bool.not_true, Bool.false_and, Bool.true_and, Bool.or_false,
          Bool.false_or]
        rw [hiss]
        rfl
      · have hps : parse r = Except.ok ⟨sa, ea⟩ := by
          unfold parse
          rw [if_neg hemp, if_pos hslash, hg]
        rw [hps]
        have hiss : ((cidrParts r).isSome && specCIDRInRange r) = true := by
          rw [← goParseCIDR_isSome, hg]
          rfl
        refine ⟨?_, ?_, goParseCIDR_start_ver hg⟩
        · unfold badFormat specFormOK specFormCIDR
          rw [hcont, hie]
          simp only [Bool.true_and, Bool.false_or]
          rw [hiss]
          rfl
        · unfold specFamily specStartAddr
          rw [if_pos hcont, hg]
          rfl
    · have hcont : r.contains '/' = false := by
        rcases hcb : r.contains '/' with _ | _
        · rfl
        · exact absurd ((contains_iff_mem _ _).mp hcb) hslash
      rcases hd : splitOnFirst '-' r with _ | ⟨before, after⟩
      · rcases hip : goParseIP r with _ | v
        · have hps : parse r = Except.error parseErr.invalidFormat := by
            unfold parse
            rw [if_neg hemp, if_neg hslash, hd, hip]
          rw [hps]
          refine ⟨rfl, ?_⟩
          unfold badFormat specFormOK specFormCIDR specFormDash specFormSingle
            dashParts
          rw [hcont, hie, hd, hip]
          simp
        · have hps : parse r = Except.ok ⟨normalizeVal v, normalizeVal v⟩ := by
            unfold parse
            rw [if_neg hemp, if_neg hslash, hd, hip]
          rw [hps]
          refine ⟨?_, ?_, normalizeVal_ver v⟩
          · unfold badFormat specFormOK specFormSingle
            rw [hcont, hie, hd, hip]
            simp
          · unfold specFamily specStartAddr
            rw [if_neg (by rw [hcont]; simp), hd, hip]
            rfl
      · rcases hb : goParseIP before with _ | sv
        · have hps : parse r = Except.error parseErr.invalidFormat := by
            unfold parse
            rw [if_neg hemp, if_neg hslash]
            simp only [hd, hb]
          rw [hps]
          refine ⟨rfl, ?_⟩
          have hdp : dashParts r = none := by
            unfold dashParts
            simp only [hd, hb]
          unfold badFormat specFormOK specFormCIDR specFormDash specFormSingle
            specDashOrdered
          rw [hcont, hie, hdp, hd]
          simp
        · have hfam : specFamily r = (normalizeVal sv).ver := by
            unfold specFamily specStartAddr
            rw [if_neg (by rw [hcont]; simp), hd]
            show (match (goParseIP before).map normalizeVal with
                  | some a => a.ver
                  | none => family.Unknown) = (normalizeVal sv).ver
            rw [hb]
            rfl
          rcases ha : goParseIP after with _ | ev
          · rcases hsub : goParseIP (substSuffix before after) with _ | ev2
            · have hps : parse r = Except.error parseErr.invalidFormat := by
                unfold parse
                rw [if_neg hemp, if_neg hslash]
                simp only [hd, hb, ha, hsub]
              rw [hps]
              refine ⟨rfl, ?_⟩
              have hdp : dashParts r = none := by
                unfold dashParts
                simp only [hd, hb, ha, hsub]
              unfold badFormat specFormOK specFormCIDR specFormDash
                specFormSingle specDashOrdered
              rw [hcont, hie, hdp, hd]
              simp
            · have hdp : dashParts r = some (normalizeVal sv, normalizeVal ev2) := by
                unfold dashParts
                simp only [hd, hb, ha, hsub]
              by_cases hord : (normalizeVal ev2).val < (normalizeVal sv).val
              · have hps : parse r = Except.error parseErr.invalidFormat := by
                  unfold parse
                  rw [if_neg hemp, if_neg hslash]
                  simp only [hd, hb, ha, hsub]
                  rw [if_pos hord]
                rw [hps]
                refine ⟨rfl, ?_⟩
                have hle : specDashOrdered r = false := by
                  unfold specDashOrdered
                  rw [hdp]
                  simp
                  omega
                have hfc : specFormCIDR r = false := by
                  unfold specFormCIDR
                  rw [hcont]
                  rfl
                have hfs : specFormSingle r = false := by
                  unfold specFormSingle
                  rw [hd]
                  simp
                unfold badFormat specFormOK
                rw [hie, hfc, hfs, hle]
                simp
              · have hps : parse r =
                    Except.ok ⟨normalizeVal sv, normalizeVal ev2⟩ := by
                  unfold parse
                  rw [if_neg hemp, if_neg hslash]
                  simp only [hd, hb, ha, hsub]
                  rw [if_neg hord]
                rw [hps]
                refine ⟨?_, ?_, normalizeVal_ver sv⟩
                · have hle : specDashOrdered r = true := by
                    unfold specDashOrdered
                    rw [hdp]
                    simp
                    omega
                  have hfd : specFormDash r = true := by
                    unfold specFormDash
                    rw [hcont, hdp]
                    rfl
                  unfold badFormat specFormOK
                  rw [hie, hfd, hle]
                  simp
                · exact hfam
          · have hdp : dashParts r = some (normalizeVal sv, normalizeVal ev) := by
              unfold dashParts
              simp only [hd, hb, ha]
            by_cases hord : (normalizeVal ev).val < (normalizeVal sv).val
            · have hps : parse r = Except.error parseErr.invalidFormat := by
                unfold parse
                rw [if_neg hemp, if_neg hslash]
                simp only [hd, hb, ha]
                rw [if_pos hord]
              rw [hps]
              refine ⟨rfl, ?_⟩
              have hle : specDashOrdered r = false := by
                unfold specDashOrdered
                rw [hdp]
                simp
                omega
              have hfc : specFormCIDR r = false := by
                unfold specFormCIDR
                rw [hcont]
                rfl
              have hfs : specFormSingle r = false := by
                unfold specFormSingle
                rw [hd]
                simp
              unfold badFormat specFormOK
              rw [hie, hfc, hfs, hle]
              simp
            · have hps : parse r =
                  Except.ok ⟨normalizeVal sv, normalizeVal ev⟩ := by
                unfold parse
                rw [if_neg hemp, if_neg hslash]
                simp only [hd, hb, ha]
                rw [if_neg hord]
              rw [hps]
              refine ⟨?_, ?_, normalizeVal_ver sv⟩
              · have hle : specDashOrdered r = true := by
                  unfold specDashOrdered
                  rw [hdp]
                  simp
                  omega
                have hfd : specFormDash r = true := by
                  unfold specFormDash
                  rw [hcont, hdp]
                  rfl
                unfold badFormat specFormOK
                rw [hie, hfd, hle]
                simp
              · exact hfam

theorem parse_invalid_iff (r : List Char) :
    parse r = Except.error parseErr.invalidFormat ↔ badFormat r = true := by
  have h := parse_characterization r
  rcases hp : parse r with e | v <;> rw [hp] at h
  · rcases h with ⟨rfl, hb⟩
    simp [hb]
  · constructor
    · intro hc
      exact Except.noConfusion hc
    · intro hb
      rw [h.1] at hb
      exact Bool.noConfusion hb

theorem parse_never_dualStack (r : List Char) :
    parse r ≠ Except.error parseErr.dualStack := by
  have h := parse_characterization r
  rcases hp : parse r with e | v <;> rw [hp] at h
  · rw [h.1]
    intro hc
    exact parseErr.noConfusion (Except.error.inj hc)
  · intro hc
    exact Except.noConfusion hc

theorem parse_ok_family {r : List Char} {v : parsedRange}
    (h : parse r = Except.ok v) :
    badFormat r = false ∧ specFamily r = v.start.ver ∧
      v.start.ver ≠ family.Unknown := by
  have hc := parse_characterization r
  rw [h] at hc
  exact hc

/-- The loop of `Parse` reports exactly the errors of the reference scan
once the version is pinned (any iteration after the first). -/
theorem ParseLoop_scan (rest : List (List Char)) : ∀ (i : ℕ) (fam0 : family)
    (acc : List parsedRange), i ≠ 0 → ∀ e,
    (ParseLoop rest i fam0 acc = Except.error e ↔
      specScan fam0 rest = Except.error e) := by
  induction rest with
  | nil =>
    intro i fam0 acc _ e
    simp [ParseLoop, specScan]
  | cons r rest' ih =>
    intro i fam0 acc hi e
    rcases hp : parse r with e' | v
    · have h := parse_characterization r
      rw [hp] at h
      rcases h with ⟨rfl, hb⟩
      have hL : ParseLoop (r :: rest') i fam0 acc =
          Except.error parseErr.invalidFormat := by
        unfold ParseLoop
        rw [hp]
      have hS : specScan fam0 (r :: rest') =
          Except.error parseErr.invalidFormat := by
        unfold specScan
        rw [if_pos hb]
      rw [hL, hS]
      simp
    · rcases parse_ok_family hp with ⟨hb, hfam, _⟩
      have hver : (if i = 0 then
          (if v.start.ver = family.IPv4 then family.IPv4 else family.IPv6)
          else fam0) = fam0 := by
        rw [if_neg hi]
      by_cases hmix : v.start.ver ≠ fam0
      · have hL : ParseLoop (r :: rest') i fam0 acc =
            Except.error parseErr.dualStack := by
          unfold ParseLoop
          rw [hp]
          simp only [hver]
          rw [if_pos hmix]
        have hS : specScan fam0 (r :: rest') =
            Except.error parseErr.dualStack := by
          unfold specScan
          rw [if_neg (by simp [hb]), if_pos (by rw [hfam]; exact hmix)]
        rw [hL, hS]
        simp
      · push_neg at hmix
        have hL : ParseLoop (r :: rest') i fam0 acc =
            ParseLoop rest' (i + 1) fam0 (acc ++ [v]) := by
          unfold ParseLoop
          rw [hp]
          simp only [hver]
          rw [if_neg (by simp [hmix])]
          rw [ParseLoop.eq_def]
        have hS : specScan fam0 (r :: rest') = specScan fam0 rest' := by
          unfold specScan
          rw [if_neg (by simp [hb]), if_neg (by simp [hfam, hmix])]
          rw [specScan.eq_def]
        rw [hL, hS]
        exact ih (i + 1) fam0 (acc ++ [v]) (by omega) e

/-- C7: `Parse` returns each of its two errors exactly when the reference
scan modelled from the claim does — walking the inputs in order, the
first offending string decides: a format-offending string (empty, or
failing the four-form grammar with its side conditions) yields the
invalid-format error, and an otherwise well-formed string of a family
other than the first string's yields the dual-stack error.  And the
format-offending strings are exactly: the empty string, strings matching
none of the four grammar forms, CIDR forms with an out-of-range prefix,
and dash forms whose end address is below their start address. -/
theorem parse_error_classification :
    (∀ rs e, ParseGo rs = Except.error e ↔ specParse rs = Except.error e) ∧
    (∀ r, badFormat r = true ↔
      (r = [] ∨
       (specFormCIDR r = false ∧ specFormDash r = false ∧
         specFormSingle r = false) ∨
       (specFormCIDR r = true ∧ specCIDRInRange r = false) ∨
       (specFormDash r = true ∧ specDashOrdered r = false))) := by
  constructor
  · intro rs e
    rcases rs with _ | ⟨r, rest⟩
    · simp [ParseGo, specParse]
    · have hne : (r :: rest) ≠ [] := by simp
      unfold ParseGo
      rw [if_neg hne]
      unfold specParse specScan
      rcases hp : parse r with e' | v
      · have h := parse_characterization r
        rw [hp] at h
        rcases h with ⟨rfl, hb⟩
        have hL : ParseLoop (r :: rest) 0 family.Unknown [] =
            Except.error parseErr.invalidFormat := by
          unfold ParseLoop
          rw [hp]
        rw [hL, if_pos hb]
        simp
      · rcases parse_ok_family hp with ⟨hb, hfam, hnu⟩
        have hver0 : (if v.start.ver = family.IPv4 then family.IPv4
            else family.IPv6) = v.start.ver := by
          rcases hv : v.start.ver
          · exact absurd hv hnu
          · rw [if_pos rfl]
          · rw [if_neg (by simp)]
        have hL : ParseLoop (r :: rest) 0 family.Unknown [] =
            ParseLoop rest (0 + 1) v.start.ver ([] ++ [v]) := by
          unfold ParseLoop
          rw [hp]
          have h0 : (if (0 : ℕ) = 0 then
              (if v.start.ver = family.IPv4 then family.IPv4 else family.IPv6)
              else family.Unknown) =
              (if v.start.ver = family.IPv4 then family.IPv4 else family.IPv6) :=
            if_pos rfl
          simp only [h0, hver0]
          rw [if_neg (by simp)]
          rw [ParseLoop.eq_def]
          rfl
        rw [hL, if_neg (by simp [hb]), if_neg (by simp [hfam])]
        rw [hfam]
        exact ParseLoop_scan rest (0 + 1) v.start.ver ([] ++ [v]) (by omega) e
  · intro r
    by_cases hr : r = []
    · subst hr
      simp [badFormat]
    · have hie : r.isEmpty = false := by
        cases r
        · exact absurd rfl hr
        · rfl
      rcases hC : specFormCIDR r with _ | _
      · rcases hD : specFormDash r with _ | _
        · rcases hS : specFormSingle r with _ | _
          · simp [badFormat, specFormOK, hC, hD, hS, hr, hie]
          · simp [badFormat, specFormOK, hC, hD, hS, hr, hie]
        · have hsp : (splitOnFirst '-' r).isNone = false := by
            unfold specFormDash dashParts at hD
            rcases hso : splitOnFirst '-' r with _ | p
            · rw [hso] at hD
              simp at hD
            · rfl
          have hS : specFormSingle r = false := by
            unfold specFormSingle
            rw [hsp]
            simp
          rcases hO : specDashOrdered r with _ | _
          · simp [badFormat, specFormOK, hC, hD, hO, hS, hr, hie]
          · simp [badFormat, specFormOK, hC, hD, hO, hS, hr, hie]
      · have hc1 : r.contains '/' = true := by
          unfold specFormCIDR at hC
          rcases hcb : r.contains '/' with _ | _
          · rw [hcb] at hC
            simp at hC
          · rfl
        have hD : specFormDash r = false := by
          unfold specFormDash
          rw [hc1]
          rfl
        have hS : specFormSingle r = false := by
          unfold specFormSingle
          rw [hc1]
          rfl
        rcases hI : specCIDRInRange r with _ | _
        · simp [badFormat, specFormOK, hC, hD, hS, hI, hr, hie]
        · simp [badFormat, specFormOK, hC, hD, hS, hI, hr, hie]

end IPRangeProof
